import Mathlib

/-! # Separate-chaining hash table (`src/src/hash_table.cpp`)

A shallow embedding of `itis::HashTable` and proofs of its contract.

Modelling conventions
* `std::optional<T>` is `Option T`; `std::list<std::pair<int, std::string>>` is `List (Int × String)`;
  `std::vector<Bucket>` is `List Bucket`; `std::unordered_set<int>` is `Finset Int`.
* Every member function that indexes the bucket array returns an outer `Option`: `none` stands
  for the undefined behaviour of `buckets_[index]` with an index outside `[0, size)`.
* `utils::hash` and `kGrowthCoefficient` are declared outside `hash_table.cpp`; they are fields
  of `Env`, a parameter of every operation.
* `load_factor_` is a `double` in the source and a rational number here (every finite `double`
  is one).  The quotient `static_cast<double>(num_keys_) / buckets_.size()` of the growth test
  is computed in double arithmetic, which rounds; it is the field `quotient` of `Env`, so that
  every theorem holds whatever the rounding is.  `modEnv` takes the exact quotient.
* `num_keys_` is a 32-bit `int`.  Its value is an `Int` in `[-2^31, 2^31)`; the increment of
  `Put` is followed by `wrapInt`, the two's-complement wrap-around that the compiled program
  performs when the counter passes `2^31 - 1` (the C++ standard leaves signed overflow
  undefined).
* `keys()` passes `num_keys_` as bucket count to the `std::unordered_set` constructor; with a
  negative counter the constructor throws, which is the result `none` of `HashTable.keys`.
  Running out of memory is not modelled.
-/

namespace itis

/-- A `std::pair<int, std::string>`. -/
abbrev Entry := Int × String

/-- A chain of entries, `std::list<std::pair<int, std::string>>`. -/
abbrev Bucket := List Entry

/-- What `hash_table.cpp` uses but does not define: the free function `utils::hash(key, size)`,
the constant `kGrowthCoefficient`, and the double-precision quotient
`static_cast<double>(num_keys) / size`. -/
structure Env where
  hash : Int → Nat → Int
  kGrowthCoefficient : Nat
  quotient : Int → Nat → ℚ

/-- The hash function returns an index in `[0, size)` for every positive `size`. -/
def Env.InRange (env : Env) : Prop :=
  ∀ (key : Int) (size : Nat), 0 < size → 0 ≤ env.hash key size ∧ env.hash key size < size

/-- The law of the quotient that the growth test relies on: a zero counter gives a zero
quotient, as `0.0 / size` does for every positive `size`. -/
def Env.ZeroQuotient (env : Env) : Prop :=
  ∀ size : Nat, 0 < size → env.quotient 0 size = 0

/-- The value an `int` holds after a result `x` that may lie outside `[-2^31, 2^31)`:
`x` reduced modulo `2^32` into that range. -/
def wrapInt (x : Int) : Int := (x + 2147483648) % 4294967296 - 2147483648

/-- The data members of `HashTable`.  `num_keys_` is an `int`: the constructor sets it to 0 and
`Put` keeps it in `[-2^31, 2^31)`. -/
structure HashTable where
  load_factor_ : ℚ
  num_keys_ : Int
  buckets_ : List Bucket
deriving DecidableEq

/-- `HashTable::hash(key)`: `utils::hash(key, buckets_.size())`. -/
def HashTable.hash (env : Env) (t : HashTable) (key : Int) : Int :=
  env.hash key t.buckets_.length

/-- `buckets_[index]`; `none` when `index` is outside `[0, size)`. -/
def bucketAt (bs : List Bucket) (index : Int) : Option Bucket :=
  if 0 ≤ index then bs[index.toNat]? else none

/-- The constructor (lines 11-21).  `num_keys_` gets its in-class initial value 0. -/
def Construct (capacity : Int) (load_factor : ℚ) : Except String HashTable :=
  if capacity ≤ 0 then
    .error "hash table capacity must be greater than zero"
  else if load_factor ≤ 0 ∨ load_factor > 1 then
    .error "hash table load factor must be in range [0...1]"
  else
    .ok { load_factor_ := load_factor, num_keys_ := 0,
          buckets_ := List.replicate capacity.toNat [] }

/-- The loop of `Search` (lines 34-39): the value of the first pair whose key matches. -/
def searchBucket : Bucket → Int → Option String
  | [], _ => none
  | pair :: rest, key => if pair.1 = key then some pair.2 else searchBucket rest key

/-- `HashTable::Search` (lines 23-40). -/
def HashTable.Search (env : Env) (t : HashTable) (key : Int) : Option (Option String) :=
  if t.num_keys_ = 0 then some none
  else
    match bucketAt t.buckets_ (t.hash env key) with
    | none => none
    | some bucket => if bucket.isEmpty then some none else some (searchBucket bucket key)

/-- The first loop of `Put` (lines 45-50): overwrite in place the value of the first pair whose
key matches; `none` when the loop ends without a match. -/
def overwriteBucket : Bucket → Int → String → Option Bucket
  | [], _, _ => none
  | pair :: rest, key, value =>
    if pair.1 = key then some ((pair.1, value) :: rest)
    else (overwriteBucket rest key value).map (fun rest' => pair :: rest')

/-- `new_buckets[new_index].push_back(pair)` (line 63); `none` when `new_index` is out of range. -/
def pushAt (bs : List Bucket) (index : Int) (pair : Entry) : Option (List Bucket) :=
  match bucketAt bs index with
  | none => none
  | some bucket => some (bs.set index.toNat (bucket ++ [pair]))

/-- The inner loop of the rehash (lines 61-64). -/
def rehashBucket (env : Env) (new_size : Nat) :
    List Bucket → Bucket → Option (List Bucket)
  | new_buckets, [] => some new_buckets
  | new_buckets, pair :: rest =>
    match pushAt new_buckets (env.hash pair.1 new_size) pair with
    | none => none
    | some new_buckets' => rehashBucket env new_size new_buckets' rest

/-- The outer loop of the rehash (lines 60-65). -/
def rehashLoop (env : Env) (new_size : Nat) :
    List Bucket → List Bucket → Option (List Bucket)
  | new_buckets, [] => some new_buckets
  | new_buckets, bucket :: rest =>
    match rehashBucket env new_size new_buckets bucket with
    | none => none
    | some new_buckets' => rehashLoop env new_size new_buckets' rest

/-- The growth test of line 55,
`static_cast<double>(num_keys_) / buckets_.size() >= load_factor_`. -/
def loadReached (env : Env) (num_keys : Int) (size : Nat) (load_factor : ℚ) : Bool :=
  decide (env.quotient num_keys size ≥ load_factor)

/-- `HashTable::Put` (lines 42-69).  Line 43, `num_keys_ += 1`, is an `int` addition. -/
def HashTable.Put (env : Env) (t : HashTable) (key : Int) (value : String) : Option HashTable :=
  let num_keys := wrapInt (t.num_keys_ + 1)
  let index := t.hash env key
  match bucketAt t.buckets_ index with
  | none => none
  | some bucket =>
    match overwriteBucket bucket key value with
    | some bucket' =>
      some { t with num_keys_ := num_keys, buckets_ := t.buckets_.set index.toNat bucket' }
    | none =>
      let buckets := t.buckets_.set index.toNat (bucket ++ [(key, value)])
      if loadReached env num_keys buckets.length t.load_factor_ then
        let new_size := buckets.length * env.kGrowthCoefficient
        match rehashLoop env new_size (List.replicate new_size []) buckets with
        | none => none
        | some new_buckets => some { t with num_keys_ := num_keys, buckets_ := new_buckets }
      else
        some { t with num_keys_ := num_keys, buckets_ := buckets }

/-- The loop of `Remove` (lines 74-80): the first pair whose key matches. -/
def findPair : Bucket → Int → Option Entry
  | [], _ => none
  | pair :: rest, key => if pair.1 = key then some pair else findPair rest key

/-- `HashTable::Remove` (lines 71-82).  `std::list::remove(pair)` erases every element equal to
`pair`. -/
def HashTable.Remove (env : Env) (t : HashTable) (key : Int) :
    Option (Option String × HashTable) :=
  let index := t.hash env key
  match bucketAt t.buckets_ index with
  | none => none
  | some bucket =>
    match findPair bucket key with
    | some pair =>
      some (some pair.2,
        { t with buckets_ := t.buckets_.set index.toNat (bucket.filter (fun p => p ≠ pair)) })
    | none => some (none, t)

/-- `HashTable::ContainsKey` (lines 84-87). -/
def HashTable.ContainsKey (env : Env) (t : HashTable) (key : Int) : Option Bool :=
  (t.Search env key).map Option.isSome

/-- `HashTable::size` (lines 93-95): the `int` counter, a value in `[-2^31, 2^31)`. -/
def HashTable.size (t : HashTable) : Int := t.num_keys_

/-- `HashTable::empty` (lines 89-91). -/
def HashTable.empty (t : HashTable) : Bool := t.size == 0

/-- `HashTable::capacity` (lines 97-99). -/
def HashTable.capacity (t : HashTable) : Int := (t.buckets_.length : Int)

/-- `HashTable::load_factor` (lines 101-103). -/
def HashTable.load_factor (t : HashTable) : ℚ := t.load_factor_

/-- The loops of `keys` (lines 107-111): insert the key of every pair of every bucket in a
set. -/
def HashTable.keySet (t : HashTable) : Finset Int :=
  t.buckets_.foldl (fun keys bucket => bucket.foldl (fun keys pair => insert pair.1 keys) keys) ∅

/-- `HashTable::keys` (lines 105-113).  Line 106 builds the set with `num_keys_` as its bucket
count; a negative `int` converts to a size the constructor refuses, and `keys` throws: `none`.
Otherwise the loops fill the set. -/
def HashTable.keys (t : HashTable) : Option (Finset Int) :=
  if t.num_keys_ < 0 then none else some t.keySet

/-- `HashTable::values` (lines 115-123): the values of every bucket, in order. -/
def HashTable.values (t : HashTable) : List String :=
  t.buckets_.foldl (fun values bucket => bucket.foldl (fun values pair => values ++ [pair.2]) values) []

/-- All stored pairs, bucket by bucket. -/
def HashTable.entries (t : HashTable) : List Entry := t.buckets_.flatten

/-- A call of one of the two mutating member functions. -/
inductive Op where
  | put (key : Int) (value : String)
  | remove (key : Int)
deriving DecidableEq

/-- Apply one call to a table. -/
def step (env : Env) (t : HashTable) : Op → Option HashTable
  | .put key value => t.Put env key value
  | .remove key => (t.Remove env key).map Prod.snd

/-- Apply a sequence of calls, first call first. -/
def run (env : Env) : HashTable → List Op → Option HashTable
  | t, [] => some t
  | t, op :: ops =>
    match step env t op with
    | none => none
    | some t' => run env t' ops

/-- A table obtained from a successful construction by a sequence of `Put` and `Remove` calls. -/
def Reachable (env : Env) (t : HashTable) : Prop :=
  ∃ (capacity : Int) (load_factor : ℚ) (t0 : HashTable) (ops : List Op),
    Construct capacity load_factor = .ok t0 ∧ run env t0 ops = some t

/-- The key a call is about. -/
def Op.key : Op → Int
  | .put key _ => key
  | .remove key => key

/-- The number of `Put` calls in a sequence. -/
def countPuts : List Op → Nat
  | [] => 0
  | .put _ _ :: ops => countPuts ops + 1
  | .remove _ :: ops => countPuts ops

/-- The sequence contains a `Put(key, ·)` that no later `Remove(key)` follows. -/
def LiveIn (ops : List Op) (key : Int) : Prop :=
  ∃ pre value post, ops = pre ++ Op.put key value :: post ∧ Op.remove key ∉ post

/-- The last call on `key` in the sequence is `Put(key, value)`. -/
def LastPut (ops : List Op) (key : Int) (value : String) : Prop :=
  ∃ pre post, ops = pre ++ Op.put key value :: post ∧ ∀ op ∈ post, op.key ≠ key

/-- What a map from keys to values holds for `key` after a sequence of calls, starting from
`cur`: a `Put` on `key` stores its value, a `Remove` on `key` clears it. -/
def track (key : Int) : Option String → List Op → Option String
  | cur, [] => cur
  | cur, .put k v :: ops => track key (if k = key then some v else cur) ops
  | cur, .remove k :: ops => track key (if k = key then none else cur) ops

/-- The bucket index that the hash function selects, as a natural number. -/
def Env.index (env : Env) (key : Int) (size : Nat) : Nat := (env.hash key size).toNat

/-- Every pair sits in the bucket that the hash function selects for its key. -/
def Placed (env : Env) (bs : List Bucket) : Prop :=
  ∀ j, ∀ hj : j < bs.length, ∀ p ∈ bs.get ⟨j, hj⟩, env.hash p.1 bs.length = (j : Int)

/-- What every table built by the constructor, `Put` and `Remove` satisfies: there is at least
one bucket, every pair sits in the bucket of its hash, and no key is stored twice.  The counter
is not part of it. -/
structure Inv (env : Env) (t : HashTable) : Prop where
  cap_pos : 0 < t.buckets_.length
  placed : Placed env t.buckets_
  nodup : (t.entries.map Prod.fst).Nodup

/-- Each key that occurs in the table occurs in exactly one pair, and a bucket that holds a
pair of that key is the bucket at index `hash(key, capacity())`. -/
def UniquePlacement (env : Env) (t : HashTable) : Prop :=
  ∀ key, key ∈ t.entries.map Prod.fst →
    (t.entries.map Prod.fst).count key = 1 ∧
    ∀ j, ∀ hj : j < t.buckets_.length, key ∈ (t.buckets_.get ⟨j, hj⟩).map Prod.fst →
      env.hash key t.buckets_.length = (j : Int)

/-- A concrete environment: the hash is the remainder of the key modulo the bucket count, a
growth event doubles the bucket count, and the quotient is exact. -/
def modEnv : Env :=
  { hash := fun key size => key % (size : Int)
    kGrowthCoefficient := 2
    quotient := fun num_keys size => (num_keys : ℚ) / (size : ℚ) }

/-- The table that `Construct(2, 1.0)` followed by `Put(1, "a")` builds, with the counter at
`counter`: two buckets, the second holding the pair `(1, "a")`. -/
def oneKeyTable (counter : Int) : HashTable := ⟨1, counter, [[], [(1, "a")]]⟩

/-! ## Chains -/

theorem findPair_some {bucket : Bucket} {key : Int} {pair : Entry}
    (h : findPair bucket key = some pair) : pair ∈ bucket ∧ pair.1 = key := by
  induction bucket with
  | nil => simp [findPair] at h
  | cons p rest ih =>
    unfold findPair at h
    split at h
    · cases h
      exact ⟨List.mem_cons_self _ _, by assumption⟩
    · exact ⟨List.mem_cons_of_mem _ (ih h).1, (ih h).2⟩

theorem findPair_none {bucket : Bucket} {key : Int} :
    findPair bucket key = none ↔ ∀ p ∈ bucket, p.1 ≠ key := by
  induction bucket with
  | nil => simp [findPair]
  | cons p rest ih =>
    unfold findPair
    by_cases hp : p.1 = key
    · simp [hp]
    · simp [hp, ih]

theorem searchBucket_eq (bucket : Bucket) (key : Int) :
    searchBucket bucket key = (findPair bucket key).map Prod.snd := by
  induction bucket with
  | nil => rfl
  | cons p rest ih =>
    unfold searchBucket findPair
    by_cases hp : p.1 = key
    · simp [hp]
    · simp [hp, ih]

/-- In a chain without repeated keys two pairs with the same key are the same pair. -/
theorem eq_of_key_eq {l : List Entry} (hl : (l.map Prod.fst).Nodup) {p q : Entry}
    (hp : p ∈ l) (hq : q ∈ l) (h : p.1 = q.1) : p = q :=
  List.inj_on_of_nodup_map hl hp hq h

theorem findPair_of_mem {bucket : Bucket} (hb : (bucket.map Prod.fst).Nodup) {pair : Entry}
    (h : pair ∈ bucket) : findPair bucket pair.1 = some pair := by
  cases hf : findPair bucket pair.1 with
  | none => exact absurd rfl (findPair_none.1 hf pair h)
  | some q =>
    have hq := findPair_some hf
    rw [eq_of_key_eq hb hq.1 h hq.2]

theorem overwriteBucket_none {bucket : Bucket} {key : Int} {value : String} :
    overwriteBucket bucket key value = none ↔ ∀ p ∈ bucket, p.1 ≠ key := by
  induction bucket with
  | nil => simp [overwriteBucket]
  | cons p rest ih =>
    unfold overwriteBucket
    by_cases hp : p.1 = key
    · simp [hp]
    · simp [hp, ih]

theorem overwriteBucket_keys {bucket bucket' : Bucket} {key : Int} {value : String}
    (h : overwriteBucket bucket key value = some bucket') :
    bucket'.map Prod.fst = bucket.map Prod.fst := by
  induction bucket generalizing bucket' with
  | nil => simp [overwriteBucket] at h
  | cons p rest ih =>
    unfold overwriteBucket at h
    split at h
    · cases h; simp
    · cases hr : overwriteBucket rest key value with
      | none => simp [hr] at h
      | some r =>
        simp [hr] at h
        subst h
        simp [ih hr]

theorem overwriteBucket_mem {bucket bucket' : Bucket} {key : Int} {value : String}
    (hb : (bucket.map Prod.fst).Nodup)
    (h : overwriteBucket bucket key value = some bucket') (p : Entry) :
    p ∈ bucket' ↔ p = (key, value) ∨ (p.1 ≠ key ∧ p ∈ bucket) := by
  induction bucket generalizing bucket' with
  | nil => simp [overwriteBucket] at h
  | cons q rest ih =>
    have hb' : (q.1 :: rest.map Prod.fst).Nodup := hb
    have hq : ∀ x ∈ rest, x.1 ≠ q.1 := by
      intro x hx hxq
      exact (List.nodup_cons.1 hb').1 (by rw [← hxq]; exact List.mem_map_of_mem _ hx)
    have hrest : (rest.map Prod.fst).Nodup := (List.nodup_cons.1 hb').2
    unfold overwriteBucket at h
    split at h
    · rename_i hk
      cases h
      simp only [List.mem_cons]
      constructor
      · rintro (h1 | h1)
        · left; rw [h1, hk]
        · right; exact ⟨fun h2 => hq p h1 (h2.trans hk.symm), Or.inr h1⟩
      · rintro (h1 | ⟨h1, h2 | h2⟩)
        · left; rw [h1, hk]
        · exact absurd (h2 ▸ hk) h1
        · exact Or.inr h2
    · rename_i hk
      cases hr : overwriteBucket rest key value with
      | none => simp [hr] at h
      | some r =>
        simp [hr] at h
        subst h
        simp only [List.mem_cons, ih hrest hr]
        constructor
        · rintro (h1 | h1 | h1)
          · right; exact ⟨by rw [h1]; exact hk, Or.inl h1⟩
          · exact Or.inl h1
          · exact Or.inr ⟨h1.1, Or.inr h1.2⟩
        · rintro (h1 | ⟨h1, h2 | h2⟩)
          · exact Or.inr (Or.inl h1)
          · exact Or.inl h2
          · exact Or.inr (Or.inr ⟨h1, h2⟩)

/-! ## The bucket array -/

theorem flatten_split {bs : List Bucket} {i : Nat} (h : i < bs.length) :
    bs.flatten = (bs.take i).flatten ++ (bs[i] ++ (bs.drop (i + 1)).flatten) := by
  have h1 : bs.take i ++ bs[i] :: bs.drop (i + 1) = bs := by
    rw [← List.drop_eq_getElem_cons h, List.take_append_drop]
  calc bs.flatten = (bs.take i ++ bs[i] :: bs.drop (i + 1)).flatten := by rw [h1]
    _ = _ := by rw [List.flatten_append, List.flatten_cons]

theorem flatten_set {bs : List Bucket} {i : Nat} (h : i < bs.length) (b : Bucket) :
    (bs.set i b).flatten = (bs.take i).flatten ++ (b ++ (bs.drop (i + 1)).flatten) := by
  rw [List.set_eq_take_append_cons_drop, if_pos h]
  simp

theorem mem_flatten_getElem {bs : List Bucket} {p : Entry} :
    p ∈ bs.flatten ↔ ∃ j, ∃ h : j < bs.length, p ∈ bs[j] := by
  rw [List.mem_flatten]
  constructor
  · rintro ⟨b, hb, hp⟩
    obtain ⟨j, hj, rfl⟩ := List.mem_iff_getElem.1 hb
    exact ⟨j, hj, hp⟩
  · rintro ⟨j, hj, hp⟩
    exact ⟨bs[j], List.getElem_mem hj, hp⟩

theorem flatten_set_push_perm {bs : List Bucket} {i : Nat} (h : i < bs.length) (p : Entry) :
    ((bs.set i (bs[i] ++ [p])).flatten).Perm (p :: bs.flatten) := by
  rw [flatten_set h, flatten_split h]
  have h1 : ((bs[i] ++ [p]) ++ (bs.drop (i + 1)).flatten).Perm
      (p :: (bs[i] ++ (bs.drop (i + 1)).flatten)) := by
    rw [List.append_assoc]
    exact List.perm_middle
  exact ((List.Perm.append_left _ h1).trans List.perm_middle)

theorem flatten_set_sublist {bs : List Bucket} {i : Nat} (h : i < bs.length) {b : Bucket}
    (hb : b.Sublist bs[i]) : ((bs.set i b).flatten).Sublist bs.flatten := by
  rw [flatten_set h, flatten_split h]
  exact List.Sublist.append (List.Sublist.refl _) (List.Sublist.append hb (List.Sublist.refl _))

theorem flatten_set_keys {bs : List Bucket} {i : Nat} (h : i < bs.length) {b : Bucket}
    (hb : b.map Prod.fst = bs[i].map Prod.fst) :
    (bs.set i b).flatten.map Prod.fst = bs.flatten.map Prod.fst := by
  rw [flatten_set h, flatten_split (i := i) h]
  simp [hb]

theorem mem_flatten_set {bs : List Bucket} {i : Nat} (h : i < bs.length) (b : Bucket) (p : Entry) :
    p ∈ (bs.set i b).flatten ↔ p ∈ b ∨ ∃ j, ∃ hj : j < bs.length, j ≠ i ∧ p ∈ bs[j] := by
  rw [mem_flatten_getElem]
  constructor
  · rintro ⟨j, hj, hp⟩
    rw [List.getElem_set] at hp
    split at hp
    · exact Or.inl hp
    · rename_i hij
      exact Or.inr ⟨j, by simpa using hj, fun e => hij e.symm, hp⟩
  · rintro (hp | ⟨j, hj, hij, hp⟩)
    · exact ⟨i, by simpa using h, by simp [hp]⟩
    · refine ⟨j, by simpa using hj, ?_⟩
      rw [List.getElem_set, if_neg (fun e => hij (Eq.symm e))]
      exact hp

theorem Env.InRange.index_lt {env : Env} (hr : env.InRange) (key : Int) {size : Nat}
    (h : 0 < size) : env.index key size < size := by
  have := hr key size h
  unfold Env.index
  omega

theorem Env.InRange.hash_eq {env : Env} (hr : env.InRange) (key : Int) {size : Nat}
    (h : 0 < size) : env.hash key size = (env.index key size : Int) := by
  have := hr key size h
  unfold Env.index
  omega

theorem bucketAt_hash {env : Env} (hr : env.InRange) (key : Int) {bs : List Bucket}
    (h : 0 < bs.length) :
    bucketAt bs (env.hash key bs.length)
      = some (bs.get ⟨env.index key bs.length, hr.index_lt key h⟩) := by
  have h1 := hr key bs.length h
  have h2 := hr.index_lt key h
  unfold bucketAt
  rw [if_pos h1.1]
  exact List.getElem?_eq_getElem h2

theorem Placed.replicate (env : Env) (n : Nat) : Placed env (List.replicate n []) := by
  intro j hj p hp
  simp at hp

theorem Placed.set {env : Env} {bs : List Bucket} (hp : Placed env bs) {i : Nat}
    (_hi : i < bs.length) {b : Bucket} (hb : ∀ p ∈ b, env.hash p.1 bs.length = (i : Int)) :
    Placed env (bs.set i b) := by
  intro j hj p hpj
  rw [List.length_set] at hj ⊢
  simp only [List.get_eq_getElem, List.getElem_set] at hpj
  split at hpj
  · rename_i hij
    rw [← hij]
    exact hb p hpj
  · exact hp j hj p (by simpa using hpj)

theorem Placed.index_eq {env : Env} (hr : env.InRange) {bs : List Bucket} (hp : Placed env bs)
    {j : Nat} (hj : j < bs.length) {p : Entry} (hm : p ∈ bs.get ⟨j, hj⟩) :
    env.index p.1 bs.length = j := by
  have h1 := hp j hj p hm
  have h2 := hr.hash_eq p.1 (Nat.zero_lt_of_lt hj)
  omega

theorem pushAt_hash {env : Env} (hr : env.InRange) (p : Entry) {acc : List Bucket}
    (h : 0 < acc.length) :
    pushAt acc (env.hash p.1 acc.length) p
      = some (acc.set (env.index p.1 acc.length)
          (acc.get ⟨env.index p.1 acc.length, hr.index_lt p.1 h⟩ ++ [p])) := by
  unfold pushAt
  rw [bucketAt_hash hr p.1 h]
  rfl

theorem rehashBucket_spec {env : Env} (hr : env.InRange) {n : Nat} (hn : 0 < n) (es : Bucket) :
    ∀ acc : List Bucket, acc.length = n → Placed env acc →
      ∃ r, rehashBucket env n acc es = some r ∧ r.length = n ∧ Placed env r ∧
        r.flatten.Perm (acc.flatten ++ es) := by
  induction es with
  | nil =>
    intro acc hlen hp
    exact ⟨acc, rfl, hlen, hp, by simp⟩
  | cons p rest ih =>
    intro acc hlen hp
    subst hlen
    have hi := hr.index_lt p.1 hn
    have hpush := pushAt_hash hr p hn
    obtain ⟨r, h1, h2, h3, h4⟩ := ih _ (List.length_set _ _ _) (hp.set hi (b := acc.get ⟨_, hi⟩ ++ [p])
      (by
        intro q hq
        rcases List.mem_append.1 hq with hq | hq
        · exact hp _ hi q hq
        · rw [List.mem_singleton.1 hq]
          exact hr.hash_eq p.1 hn))
    refine ⟨r, ?_, h2, h3, ?_⟩
    · unfold rehashBucket
      rw [hpush]
      exact h1
    · have h5 := flatten_set_push_perm hi p
      refine h4.trans ?_
      refine (List.Perm.append_right rest h5).trans ?_
      simp only [List.cons_append]
      exact List.perm_middle.symm

theorem rehashLoop_spec {env : Env} (hr : env.InRange) {n : Nat} (hn : 0 < n)
    (bs : List Bucket) :
    ∀ acc : List Bucket, acc.length = n → Placed env acc →
      ∃ r, rehashLoop env n acc bs = some r ∧ r.length = n ∧ Placed env r ∧
        r.flatten.Perm (acc.flatten ++ bs.flatten) := by
  induction bs with
  | nil =>
    intro acc hlen hp
    exact ⟨acc, rfl, hlen, hp, by simp⟩
  | cons b rest ih =>
    intro acc hlen hp
    obtain ⟨r1, h1, h2, h3, h4⟩ := rehashBucket_spec hr hn b acc hlen hp
    obtain ⟨r, g1, g2, g3, g4⟩ := ih r1 h2 h3
    refine ⟨r, ?_, g2, g3, ?_⟩
    · unfold rehashLoop
      rw [h1]
      exact g1
    · refine g4.trans ?_
      rw [List.flatten_cons, ← List.append_assoc]
      exact List.Perm.append_right _ h4

/-- The rehash of a growth event: it is defined, fills `n` buckets, places every pair by its
hash and keeps the collection of pairs. -/
theorem rehash_spec {env : Env} (hr : env.InRange) {n : Nat} (hn : 0 < n) (bs : List Bucket) :
    ∃ r, rehashLoop env n (List.replicate n []) bs = some r ∧ r.length = n ∧ Placed env r ∧
      r.flatten.Perm bs.flatten := by
  obtain ⟨r, h1, h2, h3, h4⟩ :=
    rehashLoop_spec hr hn bs (List.replicate n []) (List.length_replicate _ _) (Placed.replicate env n)
  exact ⟨r, h1, h2, h3, by simpa using h4⟩

/-! ## The representation invariant -/

theorem bucket_sublist {bs : List Bucket} {j : Nat} (hj : j < bs.length) :
    (bs.get ⟨j, hj⟩).Sublist bs.flatten := by
  rw [flatten_split hj]
  exact (List.sublist_append_left _ _).trans (List.sublist_append_right _ _)

theorem Inv.bucket_nodup {env : Env} {t : HashTable} (hi : Inv env t) {j : Nat}
    (hj : j < t.buckets_.length) : ((t.buckets_.get ⟨j, hj⟩).map Prod.fst).Nodup :=
  ((bucket_sublist hj).map Prod.fst).nodup hi.nodup

/-- A stored pair is found in the bucket of its key, and nowhere else. -/
theorem Inv.mem_entries {env : Env} {t : HashTable} (hr : env.InRange) (hi : Inv env t)
    (p : Entry) :
    p ∈ t.entries ↔
      p ∈ t.buckets_.get ⟨env.index p.1 t.buckets_.length, hr.index_lt p.1 hi.cap_pos⟩ := by
  constructor
  · intro hp
    obtain ⟨j, hj, hm⟩ := mem_flatten_getElem.1 hp
    have := hi.placed.index_eq hr hj hm
    subst this
    exact hm
  · intro hp
    exact (bucket_sublist _).subset hp

theorem searchBucket_iff {bucket : Bucket} (hb : (bucket.map Prod.fst).Nodup) (key : Int)
    (value : String) : searchBucket bucket key = some value ↔ (key, value) ∈ bucket := by
  rw [searchBucket_eq]
  constructor
  · intro h
    cases hf : findPair bucket key with
    | none => simp [hf] at h
    | some q =>
      obtain ⟨h1, h2⟩ := findPair_some hf
      simp [hf] at h
      have : q = (key, value) := Prod.ext h2 h
      rw [← this]
      exact h1
  · intro h
    have := findPair_of_mem hb h
    simp only at this
    simp [this]

/-- `Search` in a table that satisfies the invariant: it is defined, and it returns `value`
exactly when the counter is not 0 and the pair `(key, value)` is stored. -/
theorem Search_spec {env : Env} {t : HashTable} (hr : env.InRange) (hi : Inv env t)
    (key : Int) :
    ∃ r, t.Search env key = some r ∧
      ∀ value, r = some value ↔ (t.num_keys_ ≠ 0 ∧ (key, value) ∈ t.entries) := by
  have hidx := hr.index_lt key hi.cap_pos
  have hb := bucketAt_hash hr key hi.cap_pos
  have hmem : ∀ value, searchBucket (t.buckets_.get ⟨_, hidx⟩) key = some value ↔
      (key, value) ∈ t.entries := by
    intro value
    rw [searchBucket_iff (hi.bucket_nodup hidx), hi.mem_entries hr (key, value)]
  unfold HashTable.Search HashTable.hash
  rw [hb]
  by_cases h0 : t.num_keys_ = 0
  · refine ⟨none, by simp [h0], ?_⟩
    intro value
    simp [h0]
  · simp only [h0, if_false]
    by_cases he : (t.buckets_.get ⟨_, hidx⟩).isEmpty = true
    · refine ⟨none, by rw [if_pos he], ?_⟩
      intro value
      rw [← hmem value, List.isEmpty_iff.1 he]
      simp [searchBucket]
    · refine ⟨_, by rw [if_neg he], ?_⟩
      intro value
      rw [hmem value]
      exact ⟨fun h => ⟨h0, h⟩, fun h => h.2⟩

theorem Search_eq_some {env : Env} {t : HashTable} (hr : env.InRange) (hi : Inv env t)
    {key : Int} {value : String} (h0 : t.num_keys_ ≠ 0) (h : (key, value) ∈ t.entries) :
    t.Search env key = some (some value) := by
  obtain ⟨r, h1, h2⟩ := Search_spec hr hi key
  rw [h1, (h2 value).2 ⟨h0, h⟩]

theorem Search_eq_none {env : Env} {t : HashTable} (hr : env.InRange) (hi : Inv env t)
    {key : Int} (h : ∀ value, (key, value) ∉ t.entries) :
    t.Search env key = some none := by
  obtain ⟨r, h1, h2⟩ := Search_spec hr hi key
  rw [h1]
  cases r with
  | none => rfl
  | some value => exact absurd ((h2 value).1 rfl).2 (h value)

/-- With the counter at 0 `Search` returns absent without looking at the buckets. -/
theorem Search_zero (env : Env) {t : HashTable} (h0 : t.num_keys_ = 0) (key : Int) :
    t.Search env key = some none := by
  unfold HashTable.Search
  rw [if_pos h0]

/-! ## `Put` -/

theorem absent_of_bucket {env : Env} {t : HashTable} (hr : env.InRange) (hi : Inv env t)
    {key : Int}
    (h : ∀ p ∈ t.buckets_.get ⟨env.index key t.buckets_.length, hr.index_lt key hi.cap_pos⟩,
      p.1 ≠ key) (value : String) : (key, value) ∉ t.entries := by
  intro hm
  exact h _ ((hi.mem_entries hr (key, value)).1 hm) rfl

/-- The facts shared by the two exits of `Put` that add a pair. -/
theorem Inv_insert {env : Env} {t : HashTable} (hi : Inv env t) {key : Int} {value : String}
    (habs : ∀ v0, (key, v0) ∉ t.entries) {bs : List Bucket} (hlen : 0 < bs.length)
    (hpl : Placed env bs) (hperm : bs.flatten.Perm ((key, value) :: t.entries)) :
    Inv env { t with num_keys_ := wrapInt (t.num_keys_ + 1), buckets_ := bs } ∧
      ∀ p, p ∈ bs.flatten ↔ p = (key, value) ∨ (p.1 ≠ key ∧ p ∈ t.entries) := by
  have hk : ∀ p ∈ t.entries, p.1 ≠ key := by
    intro p hp hpk
    exact habs p.2 (by rw [← hpk]; exact hp)
  refine ⟨⟨hlen, hpl, ?_⟩, ?_⟩
  · refine ((hperm.map Prod.fst).nodup_iff).2 ?_
    rw [List.map_cons]
    refine List.nodup_cons.2 ⟨?_, hi.nodup⟩
    intro hm
    obtain ⟨p, hp, hpk⟩ := List.mem_map.1 hm
    exact hk p hp hpk
  · intro p
    rw [hperm.mem_iff, List.mem_cons]
    constructor
    · rintro (h | h)
      · exact Or.inl h
      · exact Or.inr ⟨hk p h, h⟩
    · rintro (h | h)
      · exact Or.inl h
      · exact Or.inr h.2

/-- `Put` on a table that satisfies the invariant: it is defined, keeps the invariant, adds one
to the `int` counter, stores `(key, value)` as the only pair of `key` and keeps every other pair.  The
bucket count changes only when `key` is new, and then exactly when the growth test holds. -/
theorem Put_spec {env : Env} {t : HashTable} (hr : env.InRange)
    (hg : 0 < env.kGrowthCoefficient) (hi : Inv env t) (key : Int) (value : String) :
    ∃ t', t.Put env key value = some t' ∧ Inv env t' ∧
      t'.num_keys_ = wrapInt (t.num_keys_ + 1) ∧
      t'.load_factor_ = t.load_factor_ ∧
      (∀ p, p ∈ t'.entries ↔ p = (key, value) ∨ (p.1 ≠ key ∧ p ∈ t.entries)) ∧
      ((∃ v0, (key, v0) ∈ t.entries) → t'.buckets_.length = t.buckets_.length) ∧
      ((∀ v0, (key, v0) ∉ t.entries) →
        t'.entries.Perm ((key, value) :: t.entries) ∧
        t'.buckets_.length =
          if loadReached env (wrapInt (t.num_keys_ + 1)) t.buckets_.length t.load_factor_ then
            t.buckets_.length * env.kGrowthCoefficient
          else t.buckets_.length) := by
  have hidx := hr.index_lt key hi.cap_pos
  have hb := bucketAt_hash hr key hi.cap_pos
  have hnat : (env.hash key t.buckets_.length).toNat = env.index key t.buckets_.length := rfl
  unfold HashTable.Put HashTable.hash
  simp only [hb, hnat, List.length_set]
  cases ho : overwriteBucket (t.buckets_.get ⟨_, hidx⟩) key value with
  | some b' =>
    have hbn := hi.bucket_nodup hidx
    have hmem := overwriteBucket_mem hbn ho
    have hkeys := overwriteBucket_keys ho
    have hkeys' := flatten_set_keys hidx hkeys
    have hpres : ∃ v0, (key, v0) ∈ t.entries := by
      by_contra hne
      have : ∀ p ∈ t.buckets_.get ⟨_, hidx⟩, p.1 ≠ key := by
        intro p hp hpk
        have e : (key, p.2) = p := by rw [← hpk]
        exact hne ⟨p.2, (bucket_sublist hidx).subset (by rw [e]; exact hp)⟩
      rw [overwriteBucket_none.2 this] at ho
      cases ho
    refine ⟨_, rfl, ⟨?_, ?_, ?_⟩, rfl, rfl, ?_, ?_, ?_⟩
    · simpa using hi.cap_pos
    · refine hi.placed.set hidx ?_
      intro p hp
      rcases (hmem p).1 hp with h | h
      · rw [h]; exact hr.hash_eq key hi.cap_pos
      · exact hi.placed _ hidx p h.2
    · show ((t.buckets_.set _ b').flatten.map Prod.fst).Nodup
      rw [hkeys']
      exact hi.nodup
    · intro p
      show p ∈ (t.buckets_.set _ b').flatten ↔ _
      rw [mem_flatten_set hidx, hmem p]
      constructor
      · rintro ((h | h) | ⟨j, hj, hij, h⟩)
        · exact Or.inl h
        · exact Or.inr ⟨h.1, (bucket_sublist hidx).subset h.2⟩
        · refine Or.inr ⟨?_, mem_flatten_getElem.2 ⟨j, hj, h⟩⟩
          intro hpk
          have := hi.placed.index_eq hr hj (p := p) h
          rw [hpk] at this
          exact hij this.symm
      · rintro (h | ⟨h1, h2⟩)
        · exact Or.inl (Or.inl h)
        · obtain ⟨j, hj, hm⟩ := mem_flatten_getElem.1 h2
          by_cases hij : j = env.index key t.buckets_.length
          · subst hij
            exact Or.inl (Or.inr ⟨h1, hm⟩)
          · exact Or.inr ⟨j, hj, hij, hm⟩
    · intro _
      show (t.buckets_.set _ b').length = _
      simp
    · intro habs
      obtain ⟨v0, hv0⟩ := hpres
      exact absurd hv0 (habs v0)
  | none =>
    have habs := absent_of_bucket hr hi (overwriteBucket_none.1 ho)
    have hperm1 := flatten_set_push_perm hidx (key, value)
    have hpl1 : Placed env (t.buckets_.set (env.index key t.buckets_.length)
        (t.buckets_.get ⟨_, hidx⟩ ++ [(key, value)])) := by
      refine hi.placed.set hidx ?_
      intro p hp
      rcases List.mem_append.1 hp with h | h
      · exact hi.placed _ hidx p h
      · rw [List.mem_singleton.1 h]; exact hr.hash_eq key hi.cap_pos
    by_cases hl :
        loadReached env (wrapInt (t.num_keys_ + 1)) t.buckets_.length t.load_factor_ = true
    · obtain ⟨r, h1, h2, h3, h4⟩ := rehash_spec hr (Nat.mul_pos hi.cap_pos hg)
        (t.buckets_.set (env.index key t.buckets_.length)
          (t.buckets_.get ⟨_, hidx⟩ ++ [(key, value)]))
      have hperm : r.flatten.Perm ((key, value) :: t.entries) := h4.trans hperm1
      obtain ⟨g1, g2⟩ := Inv_insert hi habs (by rw [h2]; exact Nat.mul_pos hi.cap_pos hg) h3 hperm
      simp only [hl, if_true]
      simp only [List.get_eq_getElem] at h1 ⊢
      rw [h1]
      exact ⟨_, rfl, g1, rfl, rfl, g2, fun _ => by
        obtain ⟨v0, hv0⟩ := ‹∃ v0, (key, v0) ∈ t.entries›
        exact absurd hv0 (habs v0), fun _ => ⟨hperm, h2⟩⟩
    · obtain ⟨g1, g2⟩ := Inv_insert hi habs (by simpa using hi.cap_pos) hpl1 hperm1
      simp only [hl]
      exact ⟨_, rfl, g1, rfl, rfl, g2, fun _ => by
        obtain ⟨v0, hv0⟩ := ‹∃ v0, (key, v0) ∈ t.entries›
        exact absurd hv0 (habs v0), fun _ => ⟨hperm1, by simp⟩⟩

/-! ## `Remove` -/

/-- `Remove` on a table that satisfies the invariant: it is defined, keeps the invariant, the
counter, the threshold and the bucket count, returns the stored value of `key` if there is one,
and deletes exactly the pair of `key`. -/
theorem Remove_spec {env : Env} {t : HashTable} (hr : env.InRange) (hi : Inv env t)
    (key : Int) :
    ∃ r t', t.Remove env key = some (r, t') ∧ Inv env t' ∧ t'.num_keys_ = t.num_keys_ ∧
      t'.load_factor_ = t.load_factor_ ∧ t'.buckets_.length = t.buckets_.length ∧
      (∀ value, r = some value ↔ (key, value) ∈ t.entries) ∧
      (∀ p, p ∈ t'.entries ↔ p.1 ≠ key ∧ p ∈ t.entries) := by
  have hidx := hr.index_lt key hi.cap_pos
  have hb := bucketAt_hash hr key hi.cap_pos
  have hnat : (env.hash key t.buckets_.length).toNat = env.index key t.buckets_.length := rfl
  unfold HashTable.Remove HashTable.hash
  simp only [hb, hnat]
  cases hf : findPair (t.buckets_.get ⟨_, hidx⟩) key with
  | none =>
    have habs := absent_of_bucket hr hi (findPair_none.1 hf)
    refine ⟨none, t, rfl, hi, rfl, rfl, rfl, ?_, ?_⟩
    · intro value
      simp [habs value]
    · intro p
      constructor
      · intro hp
        refine ⟨fun hpk => habs p.2 ?_, hp⟩
        have e : (key, p.2) = p := by rw [← hpk]
        rw [e]; exact hp
      · exact fun h => h.2
  | some pair =>
    obtain ⟨hm, hk⟩ := findPair_some hf
    have hsub : ((t.buckets_.get ⟨_, hidx⟩).filter (fun p => p ≠ pair)).Sublist
        (t.buckets_.get ⟨_, hidx⟩) := List.filter_sublist _
    have hsub' := flatten_set_sublist hidx hsub
    have hpe : pair ∈ t.entries := (bucket_sublist hidx).subset hm
    refine ⟨some pair.2, _, rfl, ⟨?_, ?_, ?_⟩, rfl, rfl, ?_, ?_, ?_⟩
    · simpa using hi.cap_pos
    · refine hi.placed.set hidx ?_
      intro p hp
      exact hi.placed _ hidx p (hsub.subset hp)
    · exact (hsub'.map Prod.fst).nodup hi.nodup
    · simp
    · intro value
      constructor
      · intro h
        have e : pair = (key, value) := Prod.ext hk (Option.some.inj h)
        rw [← e]; exact hpe
      · intro h
        have e := eq_of_key_eq hi.nodup hpe h hk
        rw [e]
    · intro p
      show p ∈ (t.buckets_.set _ _).flatten ↔ _
      rw [mem_flatten_set hidx]
      constructor
      · rintro (h | ⟨j, hj, hij, h⟩)
        · have h1 := List.mem_filter.1 h
          have hp : p ∈ t.entries := (bucket_sublist hidx).subset h1.1
          refine ⟨fun hpk => ?_, hp⟩
          have e := eq_of_key_eq hi.nodup hp hpe (hpk.trans hk.symm)
          simp [e] at h1
        · refine ⟨?_, mem_flatten_getElem.2 ⟨j, hj, h⟩⟩
          intro hpk
          have := hi.placed.index_eq hr hj (p := p) h
          rw [hpk] at this
          exact hij this.symm
      · rintro ⟨h1, h2⟩
        obtain ⟨j, hj, hm'⟩ := mem_flatten_getElem.1 h2
        by_cases hij : j = env.index key t.buckets_.length
        · subst hij
          refine Or.inl (List.mem_filter.2 ⟨hm', ?_⟩)
          have : p ≠ pair := fun e => h1 (by rw [e]; exact hk)
          simpa using this
        · exact Or.inr ⟨j, hj, hij, hm'⟩

/-! ## `keys`, the constructor and sequences of calls -/

theorem foldl_insert_keys (bucket : Bucket) (s : Finset Int) :
    bucket.foldl (fun keys pair => insert pair.1 keys) s = s ∪ (bucket.map Prod.fst).toFinset := by
  induction bucket generalizing s with
  | nil => simp
  | cons p rest ih =>
    rw [List.foldl_cons, ih]
    ext x
    simp only [Finset.mem_union, Finset.mem_insert, List.map_cons, List.toFinset_cons]
    tauto

theorem foldl_keys (bs : List Bucket) (s : Finset Int) :
    bs.foldl (fun keys bucket => bucket.foldl (fun keys pair => insert pair.1 keys) keys) s
      = s ∪ (bs.flatten.map Prod.fst).toFinset := by
  induction bs generalizing s with
  | nil => simp
  | cons b rest ih =>
    rw [List.foldl_cons, ih, foldl_insert_keys]
    ext x
    simp only [Finset.mem_union, List.flatten_cons, List.map_append, List.toFinset_append]
    tauto

/-- The set that the loops of `keys()` build holds exactly the keys of the stored pairs. -/
theorem mem_keySet (t : HashTable) (key : Int) :
    key ∈ t.keySet ↔ ∃ value, (key, value) ∈ t.entries := by
  unfold HashTable.keySet HashTable.entries
  rw [foldl_keys]
  simp only [Finset.empty_union, List.mem_toFinset, List.mem_map, Prod.exists,
    exists_and_right, exists_eq_right]

/-- With a counter that is not negative `keys()` returns the set of its loops. -/
theorem keys_of_nonneg {t : HashTable} (h : 0 ≤ t.num_keys_) : t.keys = some t.keySet := by
  unfold HashTable.keys
  rw [if_neg (by omega)]

/-- With a negative counter `keys()` throws. -/
theorem keys_of_neg {t : HashTable} (h : t.num_keys_ < 0) : t.keys = none := by
  unfold HashTable.keys
  rw [if_pos h]

theorem Construct_ok {capacity : Int} {load_factor : ℚ} {t : HashTable}
    (h : Construct capacity load_factor = .ok t) :
    0 < capacity ∧ 0 < load_factor ∧ load_factor ≤ 1 ∧
      t = { load_factor_ := load_factor, num_keys_ := 0,
            buckets_ := List.replicate capacity.toNat [] } := by
  unfold Construct at h
  split at h
  · cases h
  · split at h
    · cases h
    · rename_i h1 h2
      cases h
      refine ⟨by omega, ?_, ?_, rfl⟩
      · exact lt_of_not_ge (fun h3 => h2 (Or.inl h3))
      · exact le_of_not_gt (fun h3 => h2 (Or.inr h3))

theorem Construct_entries {capacity : Int} {load_factor : ℚ} {t : HashTable}
    (h : Construct capacity load_factor = .ok t) : t.entries = [] := by
  obtain ⟨_, _, _, rfl⟩ := Construct_ok h
  simp [HashTable.entries]

theorem Construct_inv (env : Env) {capacity : Int} {load_factor : ℚ} {t : HashTable}
    (h : Construct capacity load_factor = .ok t) : Inv env t := by
  have he := Construct_entries h
  obtain ⟨h1, _, _, rfl⟩ := Construct_ok h
  refine ⟨?_, Placed.replicate env _, by rw [he]; exact List.nodup_nil⟩
  simp only [List.length_replicate]
  omega

theorem step_spec {env : Env} {t : HashTable} (hr : env.InRange)
    (hg : 0 < env.kGrowthCoefficient) (hi : Inv env t) (op : Op) :
    ∃ t', step env t op = some t' ∧ Inv env t' := by
  cases op with
  | put key value =>
    obtain ⟨t', h1, h2, _⟩ := Put_spec hr hg hi key value
    exact ⟨t', h1, h2⟩
  | remove key =>
    obtain ⟨r, t', h1, h2, _⟩ := Remove_spec hr hi key
    exact ⟨t', by simp [step, h1], h2⟩

/-- Every sequence of calls is defined on a table that satisfies the invariant, and leads to
such a table. -/
theorem run_spec {env : Env} (hr : env.InRange) (hg : 0 < env.kGrowthCoefficient)
    (ops : List Op) : ∀ t, Inv env t → ∃ t', run env t ops = some t' ∧ Inv env t' := by
  induction ops with
  | nil => exact fun t hi => ⟨t, rfl, hi⟩
  | cons op ops ih =>
    intro t hi
    obtain ⟨t1, h1, h2⟩ := step_spec hr hg hi op
    obtain ⟨t', h3, h4⟩ := ih t1 h2
    exact ⟨t', by simp [run, h1, h3], h4⟩

theorem run_inv {env : Env} (hr : env.InRange) (hg : 0 < env.kGrowthCoefficient)
    {ops : List Op} {t t' : HashTable} (hi : Inv env t) (h : run env t ops = some t') :
    Inv env t' := by
  obtain ⟨t'', h1, h2⟩ := run_spec hr hg ops t hi
  rw [h] at h1
  cases h1
  exact h2

theorem Reachable.inv {env : Env} (hr : env.InRange) (hg : 0 < env.kGrowthCoefficient)
    {t : HashTable} (h : Reachable env t) : Inv env t := by
  obtain ⟨capacity, load_factor, t0, ops, h1, h2⟩ := h
  exact run_inv hr hg (Construct_inv env h1) h2

/-- The table refines a map from keys to values: after a sequence of calls the pair
`(key, value)` is stored exactly when `track` says so. -/
theorem run_track {env : Env} (hr : env.InRange) (hg : 0 < env.kGrowthCoefficient)
    (key : Int) (ops : List Op) :
    ∀ (t t' : HashTable) (cur : Option String), Inv env t → run env t ops = some t' →
      (∀ value, cur = some value ↔ (key, value) ∈ t.entries) →
      ∀ value, track key cur ops = some value ↔ (key, value) ∈ t'.entries := by
  induction ops with
  | nil =>
    intro t t' cur _ h hc
    cases h
    exact hc
  | cons op ops ih =>
    intro t t' cur hi h hc
    cases op with
    | put k v =>
      obtain ⟨t1, h1, h2, _, _, h3, _⟩ := Put_spec hr hg hi k v
      simp only [run, step, h1] at h
      refine ih t1 t' _ h2 h ?_
      intro value
      rw [h3]
      by_cases hk : k = key
      · subst hk
        simp
        exact eq_comm
      · simp only [hk, if_false, hc, Prod.mk.injEq]
        constructor
        · exact fun hm => Or.inr ⟨fun e => hk e.symm, hm⟩
        · rintro (⟨e, _⟩ | ⟨_, hm⟩)
          · exact absurd e.symm hk
          · exact hm
    | remove k =>
      obtain ⟨r, t1, h1, h2, _, _, _, _, h3⟩ := Remove_spec hr hi k
      simp only [run, step, h1, Option.map_some'] at h
      refine ih t1 t' _ h2 h ?_
      intro value
      rw [h3]
      by_cases hk : k = key
      · subst hk
        simp
      · simp only [hk, if_false, hc]
        exact ⟨fun hm => ⟨fun e => hk e.symm, hm⟩, fun hm => hm.2⟩

theorem LiveIn_nil (key : Int) : ¬ LiveIn [] key := by
  rintro ⟨pre, value, post, h, _⟩
  cases pre <;> cases h

theorem LiveIn_cons (op : Op) (ops : List Op) (key : Int) :
    LiveIn (op :: ops) key ↔
      ((∃ value, op = Op.put key value) ∧ Op.remove key ∉ ops) ∨ LiveIn ops key := by
  constructor
  · rintro ⟨pre, value, post, h, hn⟩
    cases pre with
    | nil =>
      simp only [List.nil_append, List.cons.injEq] at h
      obtain ⟨h1, h2⟩ := h
      subst h2
      exact Or.inl ⟨⟨value, h1⟩, hn⟩
    | cons a pre =>
      simp only [List.cons_append, List.cons.injEq] at h
      exact Or.inr ⟨pre, value, post, h.2, hn⟩
  · rintro (⟨⟨value, h1⟩, h2⟩ | ⟨pre, value, post, h, hn⟩)
    · exact ⟨[], value, ops, by simp [h1], h2⟩
    · exact ⟨op :: pre, value, post, by simp [h], hn⟩

theorem track_isSome (key : Int) (ops : List Op) :
    ∀ cur : Option String, (track key cur ops).isSome = true ↔
      LiveIn ops key ∨ (cur.isSome = true ∧ Op.remove key ∉ ops) := by
  induction ops with
  | nil =>
    intro cur
    simp [track, LiveIn_nil]
  | cons op ops ih =>
    intro cur
    cases op with
    | put k v =>
      simp only [track, ih, LiveIn_cons, List.mem_cons, Op.put.injEq, not_or]
      by_cases hk : k = key
      · subst hk
        simp
        tauto
      · have hk' : ¬ key = k := fun e => hk e.symm
        simp [hk, hk']
    | remove k =>
      simp only [track, ih, LiveIn_cons, List.mem_cons, Op.remove.injEq, not_or]
      by_cases hk : k = key
      · subst hk
        simp
      · have hk' : ¬ key = k := fun e => hk e.symm
        simp [hk, hk']

theorem LastPut_cons (op : Op) (ops : List Op) (key : Int) (value : String) :
    LastPut (op :: ops) key value ↔
      (op = Op.put key value ∧ ∀ o ∈ ops, o.key ≠ key) ∨ LastPut ops key value := by
  constructor
  · rintro ⟨pre, post, h, hn⟩
    cases pre with
    | nil =>
      simp only [List.nil_append, List.cons.injEq] at h
      obtain ⟨h1, h2⟩ := h
      subst h2
      exact Or.inl ⟨h1, hn⟩
    | cons a pre =>
      simp only [List.cons_append, List.cons.injEq] at h
      exact Or.inr ⟨pre, post, h.2, hn⟩
  · rintro (⟨h1, h2⟩ | ⟨pre, post, h, hn⟩)
    · exact ⟨[], ops, by simp [h1], h2⟩
    · exact ⟨op :: pre, post, by simp [h], hn⟩

theorem LastPut_key {ops : List Op} {key : Int} {value : String} (h : LastPut ops key value) :
    ¬ ∀ o ∈ ops, o.key ≠ key := by
  obtain ⟨pre, post, h, _⟩ := h
  intro hn
  exact hn (Op.put key value) (by simp [h]) rfl

theorem track_eq_some (key : Int) (value : String) (ops : List Op) :
    ∀ cur : Option String, track key cur ops = some value ↔
      LastPut ops key value ∨ (cur = some value ∧ ∀ o ∈ ops, o.key ≠ key) := by
  induction ops with
  | nil =>
    intro cur
    have : ¬ LastPut [] key value := by
      rintro ⟨pre, post, h, _⟩
      cases pre <;> cases h
    simp [track, this]
  | cons op ops ih =>
    intro cur
    cases op with
    | put k v =>
      simp only [track, ih, LastPut_cons, List.mem_cons, forall_eq_or_imp, Op.key,
        Op.put.injEq]
      by_cases hk : k = key
      · subst hk
        simp
        tauto
      · simp [hk]
    | remove k =>
      simp only [track, ih, LastPut_cons, List.mem_cons, forall_eq_or_imp, Op.key]
      by_cases hk : k = key
      · subst hk
        simp
      · simp [hk]

theorem modEnv_inRange : modEnv.InRange := by
  intro key size h
  have h1 : (0 : Int) < (size : Int) := by exact_mod_cast h
  exact ⟨Int.emod_nonneg key (by omega), Int.emod_lt_of_pos key h1⟩

theorem wrapInt_range (x : Int) : -2147483648 ≤ wrapInt x ∧ wrapInt x < 2147483648 := by
  unfold wrapInt
  omega

theorem wrapInt_of_range {x : Int} (h1 : -2147483648 ≤ x) (h2 : x < 2147483648) :
    wrapInt x = x := by
  unfold wrapInt
  omega

theorem wrapInt_add (a b : Int) : wrapInt (wrapInt a + b) = wrapInt (a + b) := by
  unfold wrapInt
  omega

theorem Put_size {env : Env} {t t' : HashTable} {key : Int} {value : String}
    (h : t.Put env key value = some t') : t'.num_keys_ = wrapInt (t.num_keys_ + 1) := by
  unfold HashTable.Put at h
  dsimp only at h
  split at h
  · cases h
  · split at h
    · cases h; rfl
    · split at h
      · split at h
        · cases h
        · cases h; rfl
      · cases h; rfl

theorem Remove_size {env : Env} {t t' : HashTable} {key : Int} {r : Option String}
    (h : t.Remove env key = some (r, t')) : t'.num_keys_ = t.num_keys_ := by
  unfold HashTable.Remove at h
  dsimp only at h
  split at h
  · cases h
  · split at h
    · cases h; rfl
    · cases h; rfl

theorem ContainsKey_of_Search {env : Env} {t : HashTable} {key : Int} {r : Option String}
    (h : t.Search env key = some r) : t.ContainsKey env key = some r.isSome := by
  simp [HashTable.ContainsKey, h]

/-- After a sequence of calls the counter is the counter before plus the number of `Put`
calls, as an `int`. -/
theorem run_size {env : Env} (ops : List Op) :
    ∀ t t' : HashTable, run env t ops = some t' →
      t'.num_keys_ = if countPuts ops = 0 then t.num_keys_
        else wrapInt (t.num_keys_ + (countPuts ops : Int)) := by
  induction ops with
  | nil =>
    intro t t' h
    cases h
    simp [countPuts]
  | cons op ops ih =>
    intro t t' h
    unfold run at h
    cases hs : step env t op with
    | none => simp [hs] at h
    | some t1 =>
      simp only [hs] at h
      have h1 := ih t1 t' h
      cases op with
      | put k v =>
        have h2 := Put_size (show t.Put env k v = some t1 from hs)
        simp only [countPuts, Nat.add_one_ne_zero, if_false]
        rw [h1, h2]
        split
        · rename_i h0
          rw [h0]
          simp
        · rw [wrapInt_add]
          push_cast
          congr 1
          omega
      | remove k =>
        simp only [step, Option.map_eq_some'] at hs
        obtain ⟨⟨r, t2⟩, h3, h4⟩ := hs
        simp only at h4
        subst h4
        have h2 := Remove_size h3
        simp only [countPuts]
        rw [h1, h2]

theorem Put_load_factor {env : Env} {t t' : HashTable} {key : Int} {value : String}
    (h : t.Put env key value = some t') : t'.load_factor_ = t.load_factor_ := by
  unfold HashTable.Put at h
  dsimp only at h
  split at h
  · cases h
  · split at h
    · cases h; rfl
    · split at h
      · split at h
        · cases h
        · cases h; rfl
      · cases h; rfl

theorem Remove_load_factor {env : Env} {t t' : HashTable} {key : Int} {r : Option String}
    (h : t.Remove env key = some (r, t')) : t'.load_factor_ = t.load_factor_ := by
  unfold HashTable.Remove at h
  dsimp only at h
  split at h
  · cases h
  · split at h
    · cases h; rfl
    · cases h; rfl

theorem run_load_factor {env : Env} (ops : List Op) :
    ∀ t t' : HashTable, run env t ops = some t' → t'.load_factor_ = t.load_factor_ := by
  induction ops with
  | nil =>
    intro t t' h
    cases h
    rfl
  | cons op ops ih =>
    intro t t' h
    unfold run at h
    cases hs : step env t op with
    | none => simp [hs] at h
    | some t1 =>
      simp only [hs] at h
      rw [ih t1 t' h]
      cases op with
      | put k v => exact Put_load_factor (show t.Put env k v = some t1 from hs)
      | remove k =>
        simp only [step, Option.map_eq_some'] at hs
        obtain ⟨⟨r, t2⟩, h3, h4⟩ := hs
        simp only at h4
        subst h4
        exact Remove_load_factor h3

/-- In a reachable table the threshold is the one the constructor accepted, in `(0, 1]`, and
the counter is an `int`. -/
theorem Reachable.facts {env : Env} {t : HashTable} (h : Reachable env t) :
    0 < t.load_factor_ ∧ t.load_factor_ ≤ 1 ∧
      -2147483648 ≤ t.num_keys_ ∧ t.num_keys_ < 2147483648 := by
  obtain ⟨capacity, load_factor, t0, ops, h1, h2⟩ := h
  have h3 := run_load_factor ops t0 t h2
  have h4 := run_size ops t0 t h2
  obtain ⟨_, h5, h6, rfl⟩ := Construct_ok h1
  simp only at h3 h4
  rw [h3]
  refine ⟨h5, h6, ?_⟩
  rw [h4]
  split
  · omega
  · exact wrapInt_range _

/-- A `Put` that only rewrites the counter, repeated `n` times, adds `n` to the counter as an
`int` and changes nothing else. -/
theorem run_replicate {env : Env} {load_factor : ℚ} {buckets : List Bucket} {key : Int}
    {value : String}
    (h : ∀ c : Int, HashTable.Put env ⟨load_factor, c, buckets⟩ key value
      = some ⟨load_factor, wrapInt (c + 1), buckets⟩) (n : Nat) :
    ∀ c : Int, run env ⟨load_factor, c, buckets⟩ (List.replicate n (Op.put key value))
      = some ⟨load_factor, if n = 0 then c else wrapInt (c + (n : Int)), buckets⟩ := by
  have hstep : ∀ (c : Int) (ops : List Op),
      run env ⟨load_factor, c, buckets⟩ (Op.put key value :: ops)
        = run env ⟨load_factor, wrapInt (c + 1), buckets⟩ ops := by
    intro c ops
    show (match step env _ (Op.put key value) with
      | none => none
      | some t' => run env t' ops) = _
    rw [show step env ⟨load_factor, c, buckets⟩ (Op.put key value)
      = some ⟨load_factor, wrapInt (c + 1), buckets⟩ from h c]
  induction n with
  | zero =>
    intro c
    rfl
  | succ n ih =>
    intro c
    rw [List.replicate_succ, hstep, ih]
    simp only [Nat.add_one_ne_zero, if_false]
    by_cases hn : n = 0
    · subst hn
      simp
    · rw [if_neg hn, wrapInt_add]
      have e : c + 1 + (n : Int) = c + ((n + 1 : Nat) : Int) := by
        push_cast
        omega
      rw [e]

/-- The pure counter rewrite: `Put(1, "a")` on the table that already holds `(1, "a")`. -/
theorem oneKeyTable_Put (c : Int) :
    (oneKeyTable c).Put modEnv 1 "a" = some (oneKeyTable (wrapInt (c + 1))) := by
  rfl

/-- `Construct(2, 1.0)` followed by `n + 1` calls `Put(1, "a")` leaves the one pair and the
counter `n + 1` as an `int`. -/
theorem run_puts (n : Nat) :
    run modEnv ⟨1, 0, [[], []]⟩ (Op.put 1 "a" :: List.replicate n (Op.put 1 "a"))
      = some (oneKeyTable (wrapInt (1 + (n : Int)))) := by
  have h1 : (HashTable.mk 1 0 [[], []]).Put modEnv 1 "a" = some (oneKeyTable 1) := by decide!
  show (match step modEnv _ (Op.put 1 "a") with
    | none => none
    | some t' => run modEnv t' (List.replicate n (Op.put 1 "a"))) = _
  rw [show step modEnv ⟨1, 0, [[], []]⟩ (Op.put 1 "a") = some (oneKeyTable 1) from h1]
  have h2 := @run_replicate modEnv 1 [[], [(1, "a")]] 1 "a" oneKeyTable_Put n 1
  show run modEnv ⟨1, 1, [[], [(1, "a")]]⟩ (List.replicate n (Op.put 1 "a")) = _
  rw [h2]
  by_cases hn : n = 0
  · subst hn
    rfl
  · rw [if_neg hn]
    rfl

theorem run_append {env : Env} (pre post : List Op) :
    ∀ t : HashTable, run env t (pre ++ post) = (run env t pre).bind (fun t1 => run env t1 post) := by
  induction pre with
  | nil => intro t; rfl
  | cons op pre ih =>
    intro t
    simp only [List.cons_append, run]
    cases step env t op with
    | none => rfl
    | some t1 => exact ih t1

/-! ## `values` and the key set -/

theorem foldl_push_values (bucket : Bucket) (acc : List String) :
    bucket.foldl (fun values pair => values ++ [pair.2]) acc = acc ++ bucket.map Prod.snd := by
  induction bucket generalizing acc with
  | nil => simp
  | cons p rest ih =>
    rw [List.foldl_cons, ih]
    simp

theorem foldl_values (bs : List Bucket) (acc : List String) :
    bs.foldl (fun values bucket => bucket.foldl (fun values pair => values ++ [pair.2]) values)
        acc
      = acc ++ bs.flatten.map Prod.snd := by
  induction bs generalizing acc with
  | nil => simp
  | cons b rest ih =>
    rw [List.foldl_cons, ih, foldl_push_values]
    simp

/-- `values()` is the list of the values of the stored pairs, in their order. -/
theorem values_eq (t : HashTable) : t.values = t.entries.map Prod.snd := by
  unfold HashTable.values HashTable.entries
  rw [foldl_values]
  rfl

theorem keySet_eq (t : HashTable) : t.keySet = (t.entries.map Prod.fst).toFinset := by
  unfold HashTable.keySet HashTable.entries
  rw [foldl_keys]
  simp

/-! ## The placement invariant in the words of the specification -/

theorem uniquePlacement_iff (env : Env) (t : HashTable) :
    UniquePlacement env t ↔ Placed env t.buckets_ ∧ (t.entries.map Prod.fst).Nodup := by
  constructor
  · intro h
    constructor
    · intro j hj p hp
      have hk : p.1 ∈ (t.buckets_.get ⟨j, hj⟩).map Prod.fst := List.mem_map_of_mem _ hp
      exact (h p.1 (((bucket_sublist hj).map Prod.fst).subset hk)).2 j hj hk
    · exact List.nodup_iff_count_eq_one.2 (fun a ha => (h a ha).1)
  · rintro ⟨h1, h2⟩ key hkey
    refine ⟨List.count_eq_one_of_mem h2 hkey, ?_⟩
    intro j hj hk
    obtain ⟨p, hp, hpk⟩ := List.mem_map.1 hk
    rw [← hpk]
    exact h1 j hj p hp

/-! ## Bucket counts along a sequence, and the effect of `Remove` on the array -/

theorem step_capacity {env : Env} {t t' : HashTable} (hr : env.InRange)
    (hg : 0 < env.kGrowthCoefficient) (hi : Inv env t) {op : Op}
    (h : step env t op = some t') : t.buckets_.length ≤ t'.buckets_.length := by
  cases op with
  | put key value =>
    obtain ⟨t1, h1, _, _, _, _, h2, h3⟩ := Put_spec hr hg hi key value
    have e : t' = t1 := Option.some.inj (h.symm.trans h1)
    subst e
    by_cases hp : ∃ v0, (key, v0) ∈ t.entries
    · rw [h2 hp]
    · have h4 := (h3 (fun v0 hv => hp ⟨v0, hv⟩)).2
      rw [h4]
      split
      · exact Nat.le_mul_of_pos_right _ hg
      · exact Nat.le_refl _
  | remove key =>
    obtain ⟨r, t1, h1, _, _, _, h2, _⟩ := Remove_spec hr hi key
    simp only [step, h1, Option.map_some', Option.some.injEq] at h
    subst h
    rw [h2]

theorem run_capacity {env : Env} (hr : env.InRange) (hg : 0 < env.kGrowthCoefficient)
    (ops : List Op) : ∀ t t' : HashTable, Inv env t → run env t ops = some t' →
      t.buckets_.length ≤ t'.buckets_.length := by
  induction ops with
  | nil =>
    intro t t' _ h
    cases h
    exact Nat.le_refl _
  | cons op ops ih =>
    intro t t' hi h
    obtain ⟨t1, h1, h2⟩ := step_spec hr hg hi op
    simp only [run, h1] at h
    exact Nat.le_trans (step_capacity hr hg hi h1) (ih t1 t' h2 h)

theorem set_same {bs : List Bucket} {i : Nat} (h : i < bs.length) :
    bs.set i (bs.get ⟨i, h⟩) = bs := by
  apply List.ext_getElem?
  intro j
  rw [List.getElem?_set]
  split
  · rename_i hij
    subst hij
    simp [h]
  · rfl

/-- `Remove` rewrites one bucket, the one of `key`, and leaves in it the pairs of other keys in
their order. -/
theorem Remove_buckets {env : Env} {t t' : HashTable} (hr : env.InRange) (hi : Inv env t)
    {key : Int} {r : Option String} (h : t.Remove env key = some (r, t')) :
    t'.buckets_ = t.buckets_.set (env.index key t.buckets_.length)
      ((t.buckets_.get ⟨env.index key t.buckets_.length, hr.index_lt key hi.cap_pos⟩).filter
        (fun p => p.1 ≠ key)) := by
  have hidx := hr.index_lt key hi.cap_pos
  have hb := bucketAt_hash hr key hi.cap_pos
  have hnat : (env.hash key t.buckets_.length).toNat = env.index key t.buckets_.length := rfl
  unfold HashTable.Remove HashTable.hash at h
  simp only [hb, hnat] at h
  cases hf : findPair (t.buckets_.get ⟨_, hidx⟩) key with
  | none =>
    simp only [hf, Option.some.injEq, Prod.mk.injEq] at h
    rw [← h.2]
    have hall : (t.buckets_.get ⟨_, hidx⟩).filter (fun p => p.1 ≠ key)
        = t.buckets_.get ⟨_, hidx⟩ := by
      rw [List.filter_eq_self]
      intro a ha
      simpa using findPair_none.1 hf a ha
    rw [hall, set_same hidx]
  | some pair =>
    simp only [hf, Option.some.injEq, Prod.mk.injEq] at h
    rw [← h.2]
    obtain ⟨hm, hk⟩ := findPair_some hf
    have hbn := hi.bucket_nodup hidx
    have hfil : (t.buckets_.get ⟨_, hidx⟩).filter (fun p => p ≠ pair)
        = (t.buckets_.get ⟨_, hidx⟩).filter (fun p => p.1 ≠ key) := by
      apply List.filter_congr
      intro x hx
      by_cases hxk : x.1 = key
      · have e : x = pair := eq_of_key_eq hbn hx hm (hxk.trans hk.symm)
        simp [e, hk]
      · have hne : x ≠ pair := fun e => hxk (by rw [e]; exact hk)
        simp [hxk, hne]
    show t.buckets_.set _ _ = _
    rw [hfil]

theorem option_eq_of_iff {r1 r2 : Option String}
    (h : ∀ v, r1 = some v ↔ r2 = some v) : r1 = r2 := by
  cases r1 with
  | none =>
    cases r2 with
    | none => rfl
    | some v => exact absurd ((h v).2 rfl) (by simp)
  | some v => exact ((h v).1 rfl).symm

/-- Two tables that satisfy the invariant, have the same counter and store the same pairs of
`key` give the same `Search(key)`. -/
theorem Search_congr {env : Env} {t t' : HashTable} (hr : env.InRange) (hi : Inv env t)
    (hi' : Inv env t') (key : Int) (hc : t'.num_keys_ = t.num_keys_)
    (h : ∀ v, (key, v) ∈ t'.entries ↔ (key, v) ∈ t.entries) :
    t'.Search env key = t.Search env key := by
  obtain ⟨r, h1, h2⟩ := Search_spec hr hi key
  obtain ⟨r', h1', h2'⟩ := Search_spec hr hi' key
  rw [h1, h1']
  congr 1
  exact option_eq_of_iff (fun v => by rw [h2', h2, h, hc])

theorem countPuts_append (pre post : List Op) :
    countPuts (pre ++ post) = countPuts pre + countPuts post := by
  induction pre with
  | nil => simp [countPuts]
  | cons op pre ih =>
    cases op with
    | put k v =>
      show countPuts (pre ++ post) + 1 = countPuts pre + 1 + countPuts post
      omega
    | remove k => exact ih

theorem countPuts_replicate (n : Nat) (key : Int) (value : String) :
    countPuts (List.replicate n (Op.put key value)) = n := by
  induction n with
  | zero => rfl
  | succ n ih => rw [List.replicate_succ, countPuts, ih]

/-! ## The contract -/

/-- C1 fails on the code: `Construct(2, 1.0)` followed by 4294967295 calls `Put(1, "a")` leaves
the pair `(1, "a")` stored and the `int` counter at -1; the next `Put(1, "a")` brings the
counter to 0, and `Search(1)` then returns absent and `ContainsKey(1)` false. -/
theorem Put_then_Search_fails_at_wrap :
    Construct 2 1 = .ok ⟨1, 0, [[], []]⟩ ∧
      run modEnv ⟨1, 0, [[], []]⟩ (Op.put 1 "a" :: List.replicate 4294967294 (Op.put 1 "a"))
        = some (oneKeyTable (-1)) ∧
      Reachable modEnv (oneKeyTable (-1)) ∧
      (oneKeyTable (-1)).Put modEnv 1 "a" = some (oneKeyTable 0) ∧
      (oneKeyTable 0).Search modEnv 1 = some none ∧
      (oneKeyTable 0).ContainsKey modEnv 1 = some false := by
  have h1 : Construct 2 1 = .ok ⟨1, 0, [[], []]⟩ := by simp [Construct]
  have h2 : run modEnv ⟨1, 0, [[], []]⟩
      (Op.put 1 "a" :: List.replicate 4294967294 (Op.put 1 "a")) = some (oneKeyTable (-1)) := by
    rw [run_puts]
    rfl
  exact ⟨h1, h2, ⟨2, 1, _, _, h1, h2⟩, by decide!, by decide!, by decide!⟩

/-- C2: on a freshly constructed table, `Put(key, v1)` followed by `Put(key, v2)` is defined and
afterwards `Search(key)` returns `v2`, `size()` is 2, `keys()` is the one-element set of `key`,
and the table stores the single pair `(key, v2)`. -/
theorem Put_twice_overwrites (env : Env) (hr : env.InRange) (hg : 0 < env.kGrowthCoefficient)
    (capacity : Int) (load_factor : ℚ) (t0 : HashTable)
    (hc : Construct capacity load_factor = .ok t0) (key : Int) (v1 v2 : String) :
    ∃ t1 t2, t0.Put env key v1 = some t1 ∧ t1.Put env key v2 = some t2 ∧
      t2.Search env key = some (some v2) ∧ t2.size = 2 ∧ t2.keys = some {key} ∧
      t2.entries = [(key, v2)] := by
  have hi0 := Construct_inv env hc
  have he0 := Construct_entries hc
  have hn0 : t0.num_keys_ = 0 := by
    obtain ⟨_, _, _, rfl⟩ := Construct_ok hc
    rfl
  obtain ⟨t1, h1, hi1, hn1, _, _, _⟩ := Put_spec hr hg hi0 key v1
  obtain ⟨t2, h2, hi2, hn2, _, hm2, _⟩ := Put_spec hr hg hi1 key v2
  have hmem : ∀ p, p ∈ t2.entries ↔ p ∈ [(key, v2)] := by
    intro p
    rw [hm2, List.mem_singleton]
    constructor
    · rintro (h | ⟨h3, h4⟩)
      · exact h
      · obtain ⟨_, _, _, _, _, hm1, _⟩ := Put_spec hr hg hi0 key v1
        have h5 : t1 = _ := Option.some.inj (h1.symm.trans ‹t0.Put env key v1 = some _›)
        rw [h5, hm1, he0] at h4
        rcases h4 with h4 | h4
        · exact absurd (congrArg Prod.fst h4) h3
        · exact absurd h4.2 (List.not_mem_nil _)
    · exact Or.inl
  have hnd : t2.entries.Nodup := List.Nodup.of_map _ hi2.nodup
  have hperm : t2.entries.Perm [(key, v2)] :=
    (List.perm_ext_iff_of_nodup hnd (List.nodup_singleton _)).2 hmem
  have hent : t2.entries = [(key, v2)] := List.perm_singleton.1 hperm
  have hn : t2.num_keys_ = 2 := by
    rw [hn2, hn1, hn0]
    decide
  refine ⟨t1, t2, h1, h2,
    Search_eq_some hr hi2 (by rw [hn]; decide) (by rw [hent]; exact List.mem_singleton.2 rfl),
    hn, ?_, hent⟩
  · rw [keys_of_nonneg (by rw [hn]; decide)]
    congr 1
    ext k
    rw [mem_keySet, hent, Finset.mem_singleton]
    constructor
    · rintro ⟨v, hv⟩
      exact congrArg Prod.fst (List.mem_singleton.1 hv)
    · rintro rfl
      exact ⟨v2, List.mem_singleton.2 rfl⟩

theorem Put_twice_overwrites_witness :
    modEnv.InRange ∧ Construct 2 (1 / 2) = .ok ⟨1 / 2, 0, [[], []]⟩ ∧
      ∃ t1 t2, (HashTable.mk (1 / 2) 0 [[], []]).Put modEnv 5 "x" = some t1 ∧
        t1.Put modEnv 5 "y" = some t2 ∧ t2.Search modEnv 5 = some (some "y") ∧ t2.size = 2 ∧
        t2.keys = some {5} ∧ t2.entries = [(5, "y")] :=
  ⟨modEnv_inRange, by simp [Construct]; norm_num,
    Put_twice_overwrites modEnv modEnv_inRange (by decide) 2 (1 / 2) ⟨1 / 2, 0, [[], []]⟩
      (by simp [Construct]; norm_num) 5 "x" "y"⟩

/-- C3: in a table reached from a successful construction by a sequence of calls, if the pair
`(key, value)` is stored then `value` is the value of the last `Put` on `key` in the sequence,
`Remove(key)` returns `value`, afterwards `Search(key)` is absent and `ContainsKey(key)` is
false, and `size()` is what it was before the removal. -/
theorem Remove_present (env : Env) (hr : env.InRange) (hg : 0 < env.kGrowthCoefficient)
    (capacity : Int) (load_factor : ℚ) (t0 t : HashTable) (ops : List Op)
    (hc : Construct capacity load_factor = .ok t0) (hrun : run env t0 ops = some t)
    (key : Int) (value : String) (hs : (key, value) ∈ t.entries) :
    LastPut ops key value ∧
      ∃ t', t.Remove env key = some (some value, t') ∧ t'.Search env key = some none ∧
        t'.ContainsKey env key = some false ∧ t'.size = t.size := by
  have hi0 := Construct_inv env hc
  have hi := run_inv hr hg hi0 hrun
  constructor
  · have h1 := (run_track hr hg key ops t0 t none hi0 hrun
      (by intro v; simp [Construct_entries hc]) value).2 hs
    rcases (track_eq_some key value ops none).1 h1 with h2 | h2
    · exact h2
    · exact absurd h2.1 (by simp)
  · obtain ⟨r, t', h1, h2, h3, _, _, h4, h5⟩ := Remove_spec hr hi key
    have hr' : r = some value := (h4 value).2 hs
    subst hr'
    have hsn := Search_eq_none hr h2 (fun v hv => ((h5 (key, v)).1 hv).1 rfl)
    exact ⟨t', h1, hsn, by rw [ContainsKey_of_Search hsn]; rfl, h3⟩

theorem Remove_present_witness :
    modEnv.InRange ∧ Construct 4 1 = .ok ⟨1, 0, [[], [], [], []]⟩ ∧
      run modEnv ⟨1, 0, [[], [], [], []]⟩ [Op.put 1 "a", Op.put 5 "b", Op.put 1 "c"]
        = some ⟨1, 3, [[], [(1, "c"), (5, "b")], [], []]⟩ ∧
      (LastPut [Op.put 1 "a", Op.put 5 "b", Op.put 1 "c"] 1 "c" ∧
        ∃ t', (HashTable.mk 1 3 [[], [(1, "c"), (5, "b")], [], []]).Remove modEnv 1
            = some (some "c", t') ∧
          t'.Search modEnv 1 = some none ∧ t'.ContainsKey modEnv 1 = some false ∧
          t'.size = (HashTable.mk 1 3 [[], [(1, "c"), (5, "b")], [], []]).size) :=
  ⟨modEnv_inRange, by simp [Construct], by decide!,
    Remove_present modEnv modEnv_inRange (by decide) 4 1 ⟨1, 0, [[], [], [], []]⟩
      ⟨1, 3, [[], [(1, "c"), (5, "b")], [], []]⟩
      [Op.put 1 "a", Op.put 5 "b", Op.put 1 "c"] (by simp [Construct]) (by decide!) 1 "c"
      (by simp [HashTable.entries])⟩

/-- C4: in any table with at least one bucket and a hash that returns indices in range, if no
pair of the target bucket of `key` has that key then `Remove(key)` returns the absent result and
the table it leaves is the table it was given: every bucket, `size()`, `capacity()` and
`load_factor()` are as before. -/
theorem Remove_absent (env : Env) (hr : env.InRange) (t : HashTable) (hcap : 0 < t.capacity)
    (key : Int)
    (habs : ∀ bucket, bucketAt t.buckets_ (t.hash env key) = some bucket →
      ∀ p ∈ bucket, p.1 ≠ key) :
    ∃ t', t.Remove env key = some (none, t') ∧ t' = t ∧ t'.buckets_ = t.buckets_ ∧
      t'.size = t.size ∧ t'.capacity = t.capacity ∧ t'.load_factor = t.load_factor := by
  have hpos : 0 < t.buckets_.length := by
    unfold HashTable.capacity at hcap
    exact_mod_cast hcap
  have hb := bucketAt_hash hr key hpos
  have hf := findPair_none.2 (habs _ hb)
  refine ⟨t, ?_, rfl, rfl, rfl, rfl, rfl⟩
  unfold HashTable.Remove
  unfold HashTable.hash at *
  simp only [hb, hf]

theorem Remove_absent_witness :
    modEnv.InRange ∧
      ∃ t', (HashTable.mk 1 7 [[(2, "b")], [(3, "c"), (3, "d")]]).Remove modEnv 4 = some (none, t') ∧
        t' = ⟨1, 7, [[(2, "b")], [(3, "c"), (3, "d")]]⟩ ∧
        t'.buckets_ = [[(2, "b")], [(3, "c"), (3, "d")]] ∧ t'.size = 7 ∧ t'.capacity = 2 ∧
        t'.load_factor = 1 :=
  ⟨modEnv_inRange,
    Remove_absent modEnv modEnv_inRange ⟨1, 7, [[(2, "b")], [(3, "c"), (3, "d")]]⟩ (by decide) 4
      (by
        intro bucket hb p hp
        have : bucket = [(2, "b")] := by
          have h1 : bucketAt [[(2, "b")], [(3, "c"), (3, "d")]] (4 % 2)
              = some [(2, "b")] := by decide
          exact Option.some.inj (hb.symm.trans h1)
        subst this
        rw [List.mem_singleton.1 hp]
        decide)⟩

/-- C5: after a sequence of `Put` and `Remove` calls on a freshly constructed table, none of
them a `Put` on `key`, `Search(key)` returns the absent result and `ContainsKey(key)` is false;
the empty sequence gives the freshly constructed table itself. -/
theorem never_put_absent (env : Env) (hr : env.InRange) (hg : 0 < env.kGrowthCoefficient)
    (capacity : Int) (load_factor : ℚ) (t0 : HashTable)
    (hc : Construct capacity load_factor = .ok t0) (ops : List Op) (key : Int)
    (hno : ∀ value, Op.put key value ∉ ops) :
    (∃ t, run env t0 ops = some t ∧ t.Search env key = some none ∧
      t.ContainsKey env key = some false) ∧
    t0.size = 0 ∧ t0.Search env key = some none ∧ t0.ContainsKey env key = some false := by
  have hi0 := Construct_inv env hc
  have he0 := Construct_entries hc
  have h0 : t0.Search env key = some none :=
    Search_eq_none hr hi0 (fun v hv => by rw [he0] at hv; cases hv)
  refine ⟨?_, ?_, h0, by rw [ContainsKey_of_Search h0]; rfl⟩
  · obtain ⟨t, h1, h2⟩ := run_spec hr hg ops t0 hi0
    have habs : ∀ v, (key, v) ∉ t.entries := by
      intro v hv
      have h3 := (run_track hr hg key ops t0 t none hi0 h1 (by intro v; simp [he0]) v).2 hv
      rcases (track_eq_some key v ops none).1 h3 with ⟨pre, post, h4, _⟩ | h4
      · exact hno v (by rw [h4]; simp)
      · exact absurd h4.1 (by simp)
    have hs := Search_eq_none hr h2 habs
    exact ⟨t, h1, hs, by rw [ContainsKey_of_Search hs]; rfl⟩
  · obtain ⟨_, _, _, rfl⟩ := Construct_ok hc
    rfl

theorem never_put_absent_witness :
    modEnv.InRange ∧ Construct 2 1 = .ok ⟨1, 0, [[], []]⟩ ∧
      ((∃ t, run modEnv ⟨1, 0, [[], []]⟩ [Op.put 1 "a", Op.remove 3, Op.put 2 "b"] = some t ∧
        t.Search modEnv 3 = some none ∧ t.ContainsKey modEnv 3 = some false) ∧
      (HashTable.mk 1 0 [[], []]).size = 0 ∧
      (HashTable.mk 1 0 [[], []]).Search modEnv 3 = some none ∧
      (HashTable.mk 1 0 [[], []]).ContainsKey modEnv 3 = some false) :=
  ⟨modEnv_inRange, by simp [Construct],
    never_put_absent modEnv modEnv_inRange (by decide) 2 1 ⟨1, 0, [[], []]⟩
      (by simp [Construct]) [Op.put 1 "a", Op.remove 3, Op.put 2 "b"] 3 (by intro v; simp)⟩


/-- C6: in a reachable table, a `Put(key, value)` of a key that is not present, for which the
incremented counter divided by the bucket count reaches the threshold, is defined; afterwards
`capacity()` is the old capacity times the growth coefficient, the stored pairs are the old
pairs plus `(key, value)` (none dropped, changed or duplicated), and every pair stored before
is still returned by `Search`.  The quotient of a zero counter is taken to be zero, as it is in
double arithmetic, so that a counter that reaches the threshold is not 0. -/
theorem growth_keeps_entries (env : Env) (hr : env.InRange) (hg : 0 < env.kGrowthCoefficient)
    (hq : env.ZeroQuotient) (t : HashTable) (ht : Reachable env t) (key : Int) (value : String)
    (hnew : key ∉ t.keySet)
    (hload : loadReached env (wrapInt (t.num_keys_ + 1)) t.buckets_.length t.load_factor_
      = true) :
    ∃ t', t.Put env key value = some t' ∧
      t'.capacity = t.capacity * (env.kGrowthCoefficient : Int) ∧
      t'.entries.Perm ((key, value) :: t.entries) ∧
      ∀ k v, (k, v) ∈ t.entries →
        (t.size ≠ 0 → t.Search env k = some (some v)) ∧ t'.Search env k = some (some v) := by
  have hi := ht.inv hr hg
  have hlf := ht.facts.1
  have habs : ∀ v0, (key, v0) ∉ t.entries := fun v0 hv => hnew ((mem_keySet t key).2 ⟨v0, hv⟩)
  obtain ⟨t', h1, h2, hn, _, h3, _, h4⟩ := Put_spec hr hg hi key value
  obtain ⟨h5, h6⟩ := h4 habs
  rw [if_pos hload] at h6
  have hne : t'.num_keys_ ≠ 0 := by
    intro h0
    rw [hn] at h0
    rw [h0] at hload
    unfold loadReached at hload
    rw [hq _ hi.cap_pos] at hload
    have := of_decide_eq_true hload
    exact absurd hlf (not_lt.2 this)
  refine ⟨t', h1, ?_, h5, ?_⟩
  · unfold HashTable.capacity
    rw [h6]
    push_cast
    rfl
  · intro k v hkv
    refine ⟨fun h0 => Search_eq_some hr hi h0 hkv,
      Search_eq_some hr h2 hne ((h3 (k, v)).2 (Or.inr ⟨?_, hkv⟩))⟩
    intro hk
    exact habs v (by rw [← show k = key from hk]; exact hkv)

theorem modEnv_zeroQuotient : modEnv.ZeroQuotient := by
  intro size _
  simp [modEnv]

theorem growth_keeps_entries_witness :
    modEnv.InRange ∧ modEnv.ZeroQuotient ∧ Reachable modEnv ⟨1, 1, [[], [(1, "a")]]⟩ ∧
      (2 : Int) ∉ (HashTable.mk 1 1 [[], [(1, "a")]]).keySet ∧
      loadReached modEnv (wrapInt ((1 : Int) + 1)) 2 1 = true ∧
      ∃ t', (HashTable.mk 1 1 [[], [(1, "a")]]).Put modEnv 2 "b" = some t' ∧
        t'.capacity = (HashTable.mk 1 1 [[], [(1, "a")]]).capacity * ((2 : Nat) : Int) ∧
        t'.entries.Perm ((2, "b") :: (HashTable.mk 1 1 [[], [(1, "a")]]).entries) ∧
        ∀ k v, (k, v) ∈ (HashTable.mk 1 1 [[], [(1, "a")]]).entries →
          ((HashTable.mk 1 1 [[], [(1, "a")]]).size ≠ 0 →
            (HashTable.mk 1 1 [[], [(1, "a")]]).Search modEnv k = some (some v)) ∧
          t'.Search modEnv k = some (some v) :=
  ⟨modEnv_inRange, modEnv_zeroQuotient,
    ⟨1, 1, ⟨1, 0, [[]]⟩, [Op.put 1 "a"], by simp [Construct], by decide!⟩,
    by decide, by decide!,
    growth_keeps_entries modEnv modEnv_inRange (by decide) modEnv_zeroQuotient
      ⟨1, 1, [[], [(1, "a")]]⟩
      ⟨1, 1, ⟨1, 0, [[]]⟩, [Op.put 1 "a"], by simp [Construct], by decide!⟩ 2 "b"
      (by decide) (by decide!)⟩

/-- C7: the constructor fails exactly when `capacity <= 0` or `load_factor <= 0` or
`load_factor > 1`; for every other pair of arguments it returns a table with `capacity()` the
requested capacity, `size() == 0`, `empty()` true, `load_factor()` the requested threshold and
every bucket empty. -/
theorem Construct_validates (capacity : Int) (load_factor : ℚ) :
    ((∃ msg, Construct capacity load_factor = .error msg) ↔
      (capacity ≤ 0 ∨ load_factor ≤ 0 ∨ load_factor > 1)) ∧
    ((capacity ≤ 0 ∨ load_factor ≤ 0 ∨ load_factor > 1) ∨
      ∃ t, Construct capacity load_factor = .ok t ∧ t.capacity = capacity ∧ t.size = 0 ∧
        t.empty = true ∧ t.load_factor = load_factor ∧ ∀ bucket ∈ t.buckets_, bucket = []) := by
  by_cases h1 : capacity ≤ 0
  · exact ⟨⟨fun _ => Or.inl h1, fun _ => ⟨_, by rw [Construct, if_pos h1]⟩⟩, Or.inl (Or.inl h1)⟩
  · by_cases h2 : load_factor ≤ 0 ∨ load_factor > 1
    · exact ⟨⟨fun _ => Or.inr h2, fun _ => ⟨_, by rw [Construct, if_neg h1, if_pos h2]⟩⟩,
        Or.inl (Or.inr h2)⟩
    · have hok : Construct capacity load_factor = .ok
          { load_factor_ := load_factor, num_keys_ := 0,
            buckets_ := List.replicate capacity.toNat [] } := by
        rw [Construct, if_neg h1, if_neg h2]
      refine ⟨⟨?_, ?_⟩, Or.inr ⟨_, hok, ?_, rfl, rfl, rfl, ?_⟩⟩
      · rintro ⟨msg, hm⟩
        rw [hok] at hm
        cases hm
      · rintro (h | h)
        · exact absurd h h1
        · exact absurd h h2
      · unfold HashTable.capacity
        simp only [List.length_replicate]
        omega
      · intro bucket hb
        exact List.eq_of_mem_replicate hb

/-- C8, as stated, fails: `Construct(2, 1.0)` followed by 2147483647 calls `Put(1, "a")` leaves
`size()` at 2147483647; the next `Put(1, "a")`, the 2147483648th, leaves `size()` at
-2147483648, which is neither the previous `size()` plus one nor the number of `Put` calls,
and is less than the `size()` before. -/
theorem size_counts_puts_counterexample :
    modEnv.InRange ∧ Construct 2 1 = .ok ⟨1, 0, [[], []]⟩ ∧
      run modEnv ⟨1, 0, [[], []]⟩ (Op.put 1 "a" :: List.replicate 2147483646 (Op.put 1 "a"))
        = some (oneKeyTable 2147483647) ∧
      (oneKeyTable 2147483647).Put modEnv 1 "a" = some (oneKeyTable (-2147483648)) ∧
      run modEnv ⟨1, 0, [[], []]⟩ (Op.put 1 "a" :: List.replicate 2147483647 (Op.put 1 "a"))
        = some (oneKeyTable (-2147483648)) ∧
      countPuts (Op.put 1 "a" :: List.replicate 2147483647 (Op.put 1 "a")) = 2147483648 ∧
      (oneKeyTable (-2147483648)).size ≠ (oneKeyTable 2147483647).size + 1 ∧
      (oneKeyTable (-2147483648)).size ≠ 2147483648 ∧
      (oneKeyTable (-2147483648)).size < (oneKeyTable 2147483647).size := by
  refine ⟨modEnv_inRange, by simp [Construct], ?_, by decide!, ?_, ?_, by decide, by decide,
    by decide⟩
  · rw [run_puts]
    rfl
  · rw [run_puts]
    rfl
  · rw [countPuts, countPuts_replicate]

/-- C8, amended: wherever it is defined, `Put` on a table whose `size()` is an `int` below
2147483647 adds exactly one to `size()`, and `Remove` leaves `size()` as it is; both are
defined on every reachable table; hence after any sequence with at most 2147483647 `Put`
calls on a freshly constructed table `size()` is the number of `Put` calls of the sequence,
and it is at least the `size()` reached after any initial part of the sequence. -/
theorem size_counts_puts_below_limit (env : Env) (hr : env.InRange)
    (hg : 0 < env.kGrowthCoefficient) :
    (∀ (t t' : HashTable) (key : Int) (value : String),
      t.Put env key value = some t' → -2147483648 ≤ t.size → t.size < 2147483647 →
        t'.size = t.size + 1) ∧
    (∀ (t t' : HashTable) (key : Int) (r : Option String),
      t.Remove env key = some (r, t') → t'.size = t.size) ∧
    (∀ t, Reachable env t → ∀ key : Int,
      (∀ value, ∃ t', t.Put env key value = some t') ∧ ∃ r t', t.Remove env key = some (r, t')) ∧
    (∀ (capacity : Int) (load_factor : ℚ) (t0 : HashTable),
      Construct capacity load_factor = .ok t0 → ∀ ops : List Op,
        countPuts ops ≤ 2147483647 →
        ∃ t, run env t0 ops = some t ∧ t.size = (countPuts ops : Int) ∧
          ∀ pre post, ops = pre ++ post →
            ∃ tp, run env t0 pre = some tp ∧ tp.size = (countPuts pre : Int) ∧
              tp.size ≤ t.size) := by
  have hfresh : ∀ (t0 t : HashTable) (ops : List Op), t0.num_keys_ = 0 →
      countPuts ops ≤ 2147483647 → run env t0 ops = some t →
      t.num_keys_ = (countPuts ops : Int) := by
    intro t0 t ops h0 hb h
    rw [run_size ops t0 t h, h0]
    split
    · rename_i hz
      rw [hz]
      rfl
    · rw [wrapInt_of_range (by omega) (by omega)]
      omega
  refine ⟨?_, fun t t' key r h => Remove_size h, ?_, ?_⟩
  · intro t t' key value h h1 h2
    unfold HashTable.size at *
    rw [Put_size h, wrapInt_of_range (by omega) (by omega)]
  · intro t ht key
    have hi := ht.inv hr hg
    constructor
    · intro value
      obtain ⟨t', h, _⟩ := Put_spec hr hg hi key value
      exact ⟨t', h⟩
    · obtain ⟨r, t', h, _⟩ := Remove_spec hr hi key
      exact ⟨r, t', h⟩
  · intro capacity load_factor t0 hc ops hb
    have hi0 := Construct_inv env hc
    have hn0 : t0.num_keys_ = 0 := by
      obtain ⟨_, _, _, rfl⟩ := Construct_ok hc
      rfl
    obtain ⟨t, h1, _⟩ := run_spec hr hg ops t0 hi0
    have h2 := hfresh t0 t ops hn0 hb h1
    refine ⟨t, h1, h2, ?_⟩
    intro pre post hops
    obtain ⟨tp, h3, _⟩ := run_spec hr hg pre t0 hi0
    have hle : countPuts pre ≤ countPuts ops := by
      rw [hops, countPuts_append]
      omega
    have h4 := hfresh t0 tp pre hn0 (by omega) h3
    refine ⟨tp, h3, h4, ?_⟩
    unfold HashTable.size
    rw [h4, h2]
    exact_mod_cast hle

theorem size_counts_puts_below_limit_witness :
    modEnv.InRange ∧
      (HashTable.mk 1 1 [[], [(1, "a")]]).Put modEnv 1 "b" = some ⟨1, 2, [[], [(1, "b")]]⟩ ∧
      (HashTable.mk 1 2 [[], [(1, "b")]]).size = (HashTable.mk 1 1 [[], [(1, "a")]]).size + 1 ∧
      Construct 2 1 = .ok ⟨1, 0, [[], []]⟩ ∧
      countPuts [Op.put 1 "a", Op.remove 1, Op.put 1 "b", Op.put 1 "c"] ≤ 2147483647 ∧
      ∃ t, run modEnv ⟨1, 0, [[], []]⟩ [Op.put 1 "a", Op.remove 1, Op.put 1 "b", Op.put 1 "c"]
          = some t ∧
        t.size = (countPuts [Op.put 1 "a", Op.remove 1, Op.put 1 "b", Op.put 1 "c"] : Int) ∧
        ∀ pre post, [Op.put 1 "a", Op.remove 1, Op.put 1 "b", Op.put 1 "c"] = pre ++ post →
          ∃ tp, run modEnv ⟨1, 0, [[], []]⟩ pre = some tp ∧ tp.size = (countPuts pre : Int) ∧
            tp.size ≤ t.size :=
  ⟨modEnv_inRange, by decide!,
    (size_counts_puts_below_limit modEnv modEnv_inRange (by decide)).1 ⟨1, 1, [[], [(1, "a")]]⟩
      ⟨1, 2, [[], [(1, "b")]]⟩ 1 "b" (by decide!) (by decide) (by decide),
    by simp [Construct], by decide,
    (size_counts_puts_below_limit modEnv modEnv_inRange (by decide)).2.2.2 2 1 ⟨1, 0, [[], []]⟩
      (by simp [Construct]) [Op.put 1 "a", Op.remove 1, Op.put 1 "b", Op.put 1 "c"]
      (by decide)⟩

/-- C9, as stated, fails: the table built by `Construct(1, 1.0)` and `Put(1, "a")` has two
buckets and counter 1; `Put(1, "b")` overwrites, the counter becomes 2 and 2 / 2 reaches the
threshold 1, yet the bucket count stays 2 instead of becoming 4. -/
theorem growth_check_overwrite_counterexample :
    modEnv.InRange ∧ Reachable modEnv ⟨1, 1, [[], [(1, "a")]]⟩ ∧
      loadReached modEnv (wrapInt ((1 : Int) + 1)) 2 1 = true ∧
      (HashTable.mk 1 1 [[], [(1, "a")]]).Put modEnv 1 "b" = some ⟨1, 2, [[], [(1, "b")]]⟩ ∧
      (HashTable.mk 1 2 [[], [(1, "b")]]).capacity = 2 ∧
      (HashTable.mk 1 2 [[], [(1, "b")]]).capacity
        ≠ (HashTable.mk 1 1 [[], [(1, "a")]]).capacity * (modEnv.kGrowthCoefficient : Int) :=
  ⟨modEnv_inRange, ⟨1, 1, ⟨1, 0, [[]]⟩, [Op.put 1 "a"], by simp [Construct], by decide!⟩,
    by decide!, by decide!, by decide, by decide⟩

/-- C9, amended: in a reachable table `Put(key, value)` is defined; when `key` is not present,
`capacity()` afterwards is the old capacity times the growth coefficient if the incremented
counter divided by the bucket count reaches the threshold, and the old capacity otherwise; when
`key` is present (an overwrite), `capacity()` is unchanged. -/
theorem growth_check_on_insert (env : Env) (hr : env.InRange)
    (hg : 0 < env.kGrowthCoefficient) (t : HashTable) (ht : Reachable env t) (key : Int)
    (value : String) :
    ∃ t', t.Put env key value = some t' ∧
      (key ∉ t.keySet →
        t'.capacity =
          if loadReached env (wrapInt (t.num_keys_ + 1)) t.buckets_.length t.load_factor_ then
            t.capacity * (env.kGrowthCoefficient : Int)
          else t.capacity) ∧
      (key ∈ t.keySet → t'.capacity = t.capacity) := by
  have hi := ht.inv hr hg
  obtain ⟨t', h1, _, _, _, _, h2, h3⟩ := Put_spec hr hg hi key value
  refine ⟨t', h1, ?_, ?_⟩
  · intro hnew
    have habs : ∀ v0, (key, v0) ∉ t.entries := fun v0 hv => hnew ((mem_keySet t key).2 ⟨v0, hv⟩)
    have h4 := (h3 habs).2
    unfold HashTable.capacity
    rw [h4]
    split
    · push_cast; rfl
    · rfl
  · intro hold
    unfold HashTable.capacity
    rw [h2 ((mem_keySet t key).1 hold)]

theorem growth_check_on_insert_witness :
    modEnv.InRange ∧ Reachable modEnv ⟨1, 1, [[], [(1, "a")]]⟩ ∧
      ∃ t', (HashTable.mk 1 1 [[], [(1, "a")]]).Put modEnv 2 "b" = some t' ∧
        ((2 : Int) ∉ (HashTable.mk 1 1 [[], [(1, "a")]]).keySet →
          t'.capacity =
            if loadReached modEnv (wrapInt ((1 : Int) + 1)) 2 1 then
              (HashTable.mk 1 1 [[], [(1, "a")]]).capacity * ((2 : Nat) : Int)
            else (HashTable.mk 1 1 [[], [(1, "a")]]).capacity) ∧
        ((2 : Int) ∈ (HashTable.mk 1 1 [[], [(1, "a")]]).keySet →
          t'.capacity = (HashTable.mk 1 1 [[], [(1, "a")]]).capacity) :=
  ⟨modEnv_inRange, ⟨1, 1, ⟨1, 0, [[]]⟩, [Op.put 1 "a"], by simp [Construct], by decide!⟩,
    growth_check_on_insert modEnv modEnv_inRange (by decide) ⟨1, 1, [[], [(1, "a")]]⟩
      ⟨1, 1, ⟨1, 0, [[]]⟩, [Op.put 1 "a"], by simp [Construct], by decide!⟩ 2 "b"⟩


/-- C10 fails on the code: `Construct(2, 1.0)` followed by 2147483648 calls `Put(1, "a")` is a
sequence with a `Put` of key 1 that no `Remove` follows, so the key is live and stored; the
`int` counter is then -2147483648 and `keys()` throws instead of returning the set of key 1. -/
theorem keys_throws_at_negative_counter :
    Construct 2 1 = .ok ⟨1, 0, [[], []]⟩ ∧
      run modEnv ⟨1, 0, [[], []]⟩ (Op.put 1 "a" :: List.replicate 2147483647 (Op.put 1 "a"))
        = some (oneKeyTable (-2147483648)) ∧
      LiveIn (Op.put 1 "a" :: List.replicate 2147483647 (Op.put 1 "a")) 1 ∧
      (1 : Int) ∈ (oneKeyTable (-2147483648)).keySet ∧
      (oneKeyTable (-2147483648)).keys = none := by
  refine ⟨by simp [Construct], ?_, ?_, by decide, by decide⟩
  · rw [run_puts]
    rfl
  · exact ⟨[], "a", _, rfl, fun h => by cases List.eq_of_mem_replicate h⟩

/-- C11 fails on the code: after `Construct(2, 1.0)` and 2147483648 calls `Put(1, "a")` the
table is reachable, `values()` has length 1, the number of stored pairs, and `keys()` throws
(the `int` counter is -2147483648), so there is no `keys().size()` to equal it. -/
theorem values_length_without_keys :
    Construct 2 1 = .ok ⟨1, 0, [[], []]⟩ ∧
      run modEnv ⟨1, 0, [[], []]⟩ (Op.put 1 "a" :: List.replicate 2147483647 (Op.put 1 "a"))
        = some (oneKeyTable (-2147483648)) ∧
      Reachable modEnv (oneKeyTable (-2147483648)) ∧
      (oneKeyTable (-2147483648)).values = ["a"] ∧
      (oneKeyTable (-2147483648)).values.length = 1 ∧
      (oneKeyTable (-2147483648)).keys = none := by
  have h1 : Construct 2 1 = .ok ⟨1, 0, [[], []]⟩ := by simp [Construct]
  have h2 : run modEnv ⟨1, 0, [[], []]⟩
      (Op.put 1 "a" :: List.replicate 2147483647 (Op.put 1 "a"))
        = some (oneKeyTable (-2147483648)) := by
    rw [run_puts]
    rfl
  exact ⟨h1, h2, ⟨2, 1, _, _, h1, h2⟩, by decide, by decide, by decide⟩

/-- C12: with growth coefficient 2, a hash that returns indices in range, and the quotients
1/4, 2/4 and 3/4 computed exactly (they are exact in double arithmetic), `Construct(4, 0.75)`
followed by `Put(1,"a")`, `Put(2,"b")`, `Put(3,"c")` gives `size()` 1, 2, 3 and `capacity()`
4, 4, 8; then `Search(2)` returns "b", `Remove(2)` returns "b", a following `Search(2)` is
absent and `size()` is still 3. -/
theorem worked_scenario (env : Env) (hr : env.InRange) (hg : env.kGrowthCoefficient = 2)
    (hq1 : env.quotient 1 4 = 1 / 4) (hq2 : env.quotient 2 4 = 2 / 4)
    (hq3 : env.quotient 3 4 = 3 / 4) :
    ∃ t0 t1 t2 t3 t4, Construct 4 (3 / 4) = .ok t0 ∧
      t0.Put env 1 "a" = some t1 ∧ t1.size = 1 ∧ t1.capacity = 4 ∧
      t1.Put env 2 "b" = some t2 ∧ t2.size = 2 ∧ t2.capacity = 4 ∧
      t2.Put env 3 "c" = some t3 ∧ t3.size = 3 ∧ t3.capacity = 8 ∧
      t3.Search env 2 = some (some "b") ∧ t3.Remove env 2 = some (some "b", t4) ∧
      t4.Search env 2 = some none ∧ t4.size = 3 := by
  have hg' : 0 < env.kGrowthCoefficient := by omega
  have hc : Construct 4 (3 / 4) = .ok ⟨3 / 4, 0, [[], [], [], []]⟩ := by
    simp [Construct]
    norm_num
  have hi0 := Construct_inv env hc
  have w1 : wrapInt (0 + 1) = 1 := by decide
  have w2 : wrapInt (1 + 1) = 2 := by decide
  have w3 : wrapInt (2 + 1) = 3 := by decide
  have e1 : loadReached env 1 4 (3 / 4) = false := by
    simp [loadReached, hq1]
    norm_num
  have e2 : loadReached env 2 4 (3 / 4) = false := by
    simp [loadReached, hq2]
    norm_num
  have e3 : loadReached env 3 4 (3 / 4) = true := by
    simp [loadReached, hq3]
  obtain ⟨t1, p1, i1, n1, l1, m1, _, g1⟩ := Put_spec hr hg' hi0 1 "a"
  have a1 : ∀ v0, ((1 : Int), v0) ∉ (HashTable.mk (3 / 4) 0 [[], [], [], []]).entries := by
    intro v0
    simp [HashTable.entries]
  have c1 := (g1 a1).2
  simp only [List.length_cons, List.length_nil] at c1
  rw [show (0 : Nat) + 1 + 1 + 1 + 1 = 4 from rfl] at c1
  simp only at n1 l1 c1
  rw [w1] at n1 c1
  rw [e1] at c1
  simp only [Bool.false_eq_true, if_false] at c1
  obtain ⟨t2, p2, i2, n2, l2, m2, _, g2⟩ := Put_spec hr hg' i1 2 "b"
  have a2 : ∀ v0, ((2 : Int), v0) ∉ t1.entries := by
    intro v0 hv
    rcases (m1 _).1 hv with h | h
    · exact absurd (congrArg Prod.fst h) (by simp)
    · simp [HashTable.entries] at h
  have c2 := (g2 a2).2
  rw [n1, w2] at n2
  rw [c1, n1, w2, l1, e2] at c2
  simp only [Bool.false_eq_true, if_false] at c2
  obtain ⟨t3, p3, i3, n3, l3, m3, _, g3⟩ := Put_spec hr hg' i2 3 "c"
  have a3 : ∀ v0, ((3 : Int), v0) ∉ t2.entries := by
    intro v0 hv
    rcases (m2 _).1 hv with h | h
    · exact absurd (congrArg Prod.fst h) (by simp)
    · rcases (m1 _).1 h.2 with h' | h'
      · exact absurd (congrArg Prod.fst h') (by simp)
      · simp [HashTable.entries] at h'
  have c3 := (g3 a3).2
  rw [n2, w3] at n3
  rw [c2, n2, w3, l2, l1, e3, hg] at c3
  simp only [if_true] at c3
  have hb : ((2 : Int), "b") ∈ t3.entries :=
    (m3 _).2 (Or.inr ⟨by decide, (m2 _).2 (Or.inl rfl)⟩)
  obtain ⟨r, t4, p4, i4, n4, _, _, v4, m4⟩ := Remove_spec hr i3 2
  have hr4 : r = some "b" := (v4 "b").2 hb
  subst hr4
  refine ⟨_, t1, t2, t3, t4, hc, p1, ?_, ?_, p2, ?_, ?_, p3, ?_, ?_,
    Search_eq_some hr i3 (by rw [n3]; decide) hb, p4,
    Search_eq_none hr i4 (fun v hv => ((m4 (2, v)).1 hv).1 rfl), ?_⟩
  · exact n1
  · unfold HashTable.capacity; rw [c1]; rfl
  · exact n2
  · unfold HashTable.capacity; rw [c2]; rfl
  · exact n3
  · unfold HashTable.capacity; rw [c3]; rfl
  · show t4.num_keys_ = 3
    rw [n4, n3]

theorem worked_scenario_witness :
    modEnv.InRange ∧
      ∃ t0 t1 t2 t3 t4, Construct 4 (3 / 4) = .ok t0 ∧
        t0.Put modEnv 1 "a" = some t1 ∧ t1.size = 1 ∧ t1.capacity = 4 ∧
        t1.Put modEnv 2 "b" = some t2 ∧ t2.size = 2 ∧ t2.capacity = 4 ∧
        t2.Put modEnv 3 "c" = some t3 ∧ t3.size = 3 ∧ t3.capacity = 8 ∧
        t3.Search modEnv 2 = some (some "b") ∧ t3.Remove modEnv 2 = some (some "b", t4) ∧
        t4.Search modEnv 2 = some none ∧ t4.size = 3 :=
  ⟨modEnv_inRange,
    worked_scenario modEnv modEnv_inRange rfl (by simp [modEnv]) (by simp [modEnv])
      (by simp [modEnv])⟩

/-- C13: the unique-key placement invariant (each key that occurs in the table occurs in
exactly one pair, in the bucket at index `hash(key, capacity())`) holds in a freshly constructed
table, is kept by every `Put` (with or without a growth event) and every `Remove` on a table
with at least one bucket, both of which are defined there, and so holds in every reachable
table. -/
theorem unique_placement_invariant (env : Env) (hr : env.InRange)
    (hg : 0 < env.kGrowthCoefficient) :
    (∀ (capacity : Int) (load_factor : ℚ) (t0 : HashTable),
      Construct capacity load_factor = .ok t0 → UniquePlacement env t0) ∧
    (∀ (t : HashTable) (key : Int) (value : String), 0 < t.capacity → UniquePlacement env t →
      ∃ t', t.Put env key value = some t' ∧ 0 < t'.capacity ∧ UniquePlacement env t') ∧
    (∀ (t : HashTable) (key : Int), 0 < t.capacity → UniquePlacement env t →
      ∃ r t', t.Remove env key = some (r, t') ∧ 0 < t'.capacity ∧ UniquePlacement env t') ∧
    (∀ t : HashTable, Reachable env t → UniquePlacement env t) := by
  have hshape : ∀ t : HashTable, 0 < t.capacity → UniquePlacement env t → Inv env t := by
    intro t hc hu
    obtain ⟨h1, h2⟩ := (uniquePlacement_iff env t).1 hu
    exact ⟨by unfold HashTable.capacity at hc; exact_mod_cast hc, h1, h2⟩
  have hback : ∀ t : HashTable, Inv env t → 0 < t.capacity ∧ UniquePlacement env t := by
    intro t hs
    exact ⟨by unfold HashTable.capacity; exact_mod_cast hs.cap_pos,
      (uniquePlacement_iff env t).2 ⟨hs.placed, hs.nodup⟩⟩
  refine ⟨?_, ?_, ?_, ?_⟩
  · intro capacity load_factor t0 hc
    exact (hback t0 (Construct_inv env hc)).2
  · intro t key value hc hu
    obtain ⟨t', h1, h2, _⟩ := Put_spec hr hg (hshape t hc hu) key value
    exact ⟨t', h1, hback t' h2⟩
  · intro t key hc hu
    obtain ⟨r, t', h1, h2, _⟩ := Remove_spec hr (hshape t hc hu) key
    exact ⟨r, t', h1, hback t' h2⟩
  · intro t ht
    exact (hback t (ht.inv hr hg)).2

theorem unique_placement_invariant_witness :
    modEnv.InRange ∧ Reachable modEnv ⟨1, 1, [[], [(1, "a")]]⟩ ∧
      UniquePlacement modEnv ⟨1, 1, [[], [(1, "a")]]⟩ ∧
      ∃ t', (HashTable.mk 1 1 [[], [(1, "a")]]).Put modEnv 2 "b" = some t' ∧ 0 < t'.capacity ∧
        UniquePlacement modEnv t' :=
  ⟨modEnv_inRange, ⟨1, 1, ⟨1, 0, [[]]⟩, [Op.put 1 "a"], by simp [Construct], by decide!⟩,
    (unique_placement_invariant modEnv modEnv_inRange (by decide)).2.2.2 _
      ⟨1, 1, ⟨1, 0, [[]]⟩, [Op.put 1 "a"], by simp [Construct], by decide!⟩,
    (unique_placement_invariant modEnv modEnv_inRange (by decide)).2.1
      ⟨1, 1, [[], [(1, "a")]]⟩ 2 "b" (by decide)
      ((unique_placement_invariant modEnv modEnv_inRange (by decide)).2.2.2 _
        ⟨1, 1, ⟨1, 0, [[]]⟩, [Op.put 1 "a"], by simp [Construct], by decide!⟩)⟩

/-- C14 fails on the code: after `Construct(2, 1.0)`, `Put(1,"a")`, `Put(1,"b")` the counter
is 2 while one pair is stored, and after `Construct(2, 1.0)`, `Put(1,"a")`, `Remove(1)` the
counter is 1 while no pair is stored. -/
theorem counter_differs_from_entry_count :
    Construct 2 1 = .ok ⟨1, 0, [[], []]⟩ ∧
      run modEnv ⟨1, 0, [[], []]⟩ [Op.put 1 "a", Op.put 1 "b"]
        = some ⟨1, 2, [[], [(1, "b")]]⟩ ∧
      (HashTable.mk 1 2 [[], [(1, "b")]]).size = 2 ∧
      (HashTable.mk 1 2 [[], [(1, "b")]]).entries.length = 1 ∧
      run modEnv ⟨1, 0, [[], []]⟩ [Op.put 1 "a", Op.remove 1] = some ⟨1, 1, [[], []]⟩ ∧
      (HashTable.mk 1 1 [[], []]).size = 1 ∧
      (HashTable.mk 1 1 [[], []]).entries.length = 0 :=
  ⟨by simp [Construct], by decide!, by decide, by decide, by decide!, by decide, by decide⟩

/-- C15, as stated, fails: `Construct(1, 0.5)` followed by `Put(1,"a")` inserts a new key, grows
once from 1 to 2 buckets and returns with `num_keys / capacity` = 1/2, which is not below the
threshold 1/2. -/
theorem load_bound_counterexample :
    modEnv.InRange ∧ Construct 1 (1 / 2) = .ok ⟨1 / 2, 0, [[]]⟩ ∧
      (1 : Int) ∉ (HashTable.mk (1 / 2) 0 [[]]).keySet ∧
      (HashTable.mk (1 / 2) 0 [[]]).Put modEnv 1 "a" = some ⟨1 / 2, 1, [[], [(1, "a")]]⟩ ∧
      ¬ (((HashTable.mk (1 / 2) 1 [[], [(1, "a")]]).size : ℚ)
          / ((HashTable.mk (1 / 2) 1 [[], [(1, "a")]]).capacity : ℚ)
        < (HashTable.mk (1 / 2) 1 [[], [(1, "a")]]).load_factor) :=
  ⟨modEnv_inRange, by simp [Construct]; norm_num, by decide, by decide!, by
    simp [HashTable.size, HashTable.capacity, HashTable.load_factor]⟩

/-- C15, amended: in a reachable table a `Put` that inserts a new key is defined and adds one
to the `int` counter; if the growth test fails the bucket count is unchanged and on return
`num_keys / capacity` is below the threshold; if the test holds exactly one growth event is
performed, `capacity()` is the old capacity times the growth coefficient, and on return
`num_keys / capacity` is the ratio that reached the threshold divided by the coefficient. -/
theorem load_bound_after_insert (env : Env) (hr : env.InRange)
    (hg : 0 < env.kGrowthCoefficient) (t : HashTable) (ht : Reachable env t) (key : Int)
    (value : String) (hnew : key ∉ t.keySet) :
    ∃ t', t.Put env key value = some t' ∧ t'.size = wrapInt (t.size + 1) ∧
      (t.size < 2147483647 → t'.size = t.size + 1) ∧
      t'.load_factor = t.load_factor ∧
      (loadReached env (wrapInt (t.size + 1)) t.buckets_.length t.load_factor = false →
        t'.capacity = t.capacity ∧
        env.quotient t'.size t'.buckets_.length < t'.load_factor) ∧
      (loadReached env (wrapInt (t.size + 1)) t.buckets_.length t.load_factor = true →
        t'.capacity = t.capacity * (env.kGrowthCoefficient : Int) ∧
        (t'.size : ℚ) / (t'.capacity : ℚ)
          = ((wrapInt (t.size + 1) : Int) : ℚ) / (t.capacity : ℚ)
            / (env.kGrowthCoefficient : ℚ)) := by
  have hi := ht.inv hr hg
  have hlow := ht.facts.2.2.1
  have habs : ∀ v0, (key, v0) ∉ t.entries := fun v0 hv => hnew ((mem_keySet t key).2 ⟨v0, hv⟩)
  obtain ⟨t', h1, _, h2, h3, _, _, h4⟩ := Put_spec hr hg hi key value
  have h5 := (h4 habs).2
  unfold HashTable.size HashTable.load_factor HashTable.capacity
  refine ⟨t', h1, h2, ?_, h3, ?_, ?_⟩
  · intro hmax
    rw [h2, wrapInt_of_range (by omega) (by omega)]
  · intro hf
    rw [hf] at h5
    simp only [Bool.false_eq_true, if_false] at h5
    refine ⟨by rw [h5], ?_⟩
    rw [h5, h2, h3]
    unfold loadReached at hf
    exact lt_of_not_ge (of_decide_eq_false hf)
  · intro hf
    rw [hf] at h5
    simp only [if_true] at h5
    refine ⟨by rw [h5]; push_cast; rfl, ?_⟩
    rw [h5, h2]
    push_cast
    rw [div_div]

theorem load_bound_after_insert_witness :
    modEnv.InRange ∧ Reachable modEnv ⟨1, 1, [[], [(1, "a")]]⟩ ∧
      (2 : Int) ∉ (HashTable.mk 1 1 [[], [(1, "a")]]).keySet ∧
      ∃ t', (HashTable.mk 1 1 [[], [(1, "a")]]).Put modEnv 2 "b" = some t' ∧
        t'.size = wrapInt ((HashTable.mk 1 1 [[], [(1, "a")]]).size + 1) ∧
        ((HashTable.mk 1 1 [[], [(1, "a")]]).size < 2147483647 →
          t'.size = (HashTable.mk 1 1 [[], [(1, "a")]]).size + 1) ∧
        t'.load_factor = (HashTable.mk 1 1 [[], [(1, "a")]]).load_factor ∧
        (loadReached modEnv (wrapInt ((HashTable.mk 1 1 [[], [(1, "a")]]).size + 1))
            (HashTable.mk 1 1 [[], [(1, "a")]]).buckets_.length
            (HashTable.mk 1 1 [[], [(1, "a")]]).load_factor = false →
          t'.capacity = (HashTable.mk 1 1 [[], [(1, "a")]]).capacity ∧
          modEnv.quotient t'.size t'.buckets_.length < t'.load_factor) ∧
        (loadReached modEnv (wrapInt ((HashTable.mk 1 1 [[], [(1, "a")]]).size + 1))
            (HashTable.mk 1 1 [[], [(1, "a")]]).buckets_.length
            (HashTable.mk 1 1 [[], [(1, "a")]]).load_factor = true →
          t'.capacity = (HashTable.mk 1 1 [[], [(1, "a")]]).capacity
            * (modEnv.kGrowthCoefficient : Int) ∧
          (t'.size : ℚ) / (t'.capacity : ℚ)
            = ((wrapInt ((HashTable.mk 1 1 [[], [(1, "a")]]).size + 1) : Int) : ℚ)
              / ((HashTable.mk 1 1 [[], [(1, "a")]]).capacity : ℚ)
              / (modEnv.kGrowthCoefficient : ℚ)) :=
  ⟨modEnv_inRange, ⟨1, 1, ⟨1, 0, [[]]⟩, [Op.put 1 "a"], by simp [Construct], by decide!⟩,
    by decide,
    load_bound_after_insert modEnv modEnv_inRange (by decide) ⟨1, 1, [[], [(1, "a")]]⟩
      ⟨1, 1, ⟨1, 0, [[]]⟩, [Op.put 1 "a"], by simp [Construct], by decide!⟩ 2 "b" (by decide)⟩


/-- C16: in every reachable table `capacity()` is positive and no sequence of calls decreases
it; the index `hash(key)` lies in `[0, capacity())` and selects a bucket, so `Search`, `Put` and
`Remove` are defined for every key; and in the array of `capacity * coefficient` buckets built
by a growth event every index `hash(key, capacity * coefficient)` is in range, so the rehash
loop is defined. -/
theorem capacity_positive_indices_valid (env : Env) (hr : env.InRange)
    (hg : 0 < env.kGrowthCoefficient) (t : HashTable) (ht : Reachable env t) :
    0 < t.capacity ∧
    (∀ (ops : List Op) (t' : HashTable), run env t ops = some t' → t.capacity ≤ t'.capacity) ∧
    (∀ key : Int, 0 ≤ t.hash env key ∧ t.hash env key < t.capacity ∧
      ∃ bucket, bucketAt t.buckets_ (t.hash env key) = some bucket) ∧
    (∀ key : Int, (∃ r, t.Search env key = some r) ∧
      (∀ value, ∃ t', t.Put env key value = some t') ∧
      ∃ r t', t.Remove env key = some (r, t')) ∧
    (∀ key : Int, 0 ≤ env.hash key (t.buckets_.length * env.kGrowthCoefficient) ∧
      env.hash key (t.buckets_.length * env.kGrowthCoefficient)
        < ((t.buckets_.length * env.kGrowthCoefficient : Nat) : Int)) ∧
    (∀ buckets : List Bucket, ∃ new_buckets,
      rehashLoop env (t.buckets_.length * env.kGrowthCoefficient)
        (List.replicate (t.buckets_.length * env.kGrowthCoefficient) []) buckets
        = some new_buckets) := by
  have hi := ht.inv hr hg
  have hpos := hi.cap_pos
  have hmul : 0 < t.buckets_.length * env.kGrowthCoefficient := Nat.mul_pos hpos hg
  refine ⟨?_, ?_, ?_, ?_, ?_, ?_⟩
  · unfold HashTable.capacity
    exact_mod_cast hpos
  · intro ops t' h
    unfold HashTable.capacity
    exact_mod_cast run_capacity hr hg ops t t' hi h
  · intro key
    have h1 := hr key t.buckets_.length hpos
    exact ⟨h1.1, h1.2, _, bucketAt_hash hr key hpos⟩
  · intro key
    refine ⟨?_, ?_, ?_⟩
    · obtain ⟨r, h, _⟩ := Search_spec hr hi key
      exact ⟨r, h⟩
    · intro value
      obtain ⟨t', h, _⟩ := Put_spec hr hg hi key value
      exact ⟨t', h⟩
    · obtain ⟨r, t', h, _⟩ := Remove_spec hr hi key
      exact ⟨r, t', h⟩
  · intro key
    exact hr key _ hmul
  · intro buckets
    obtain ⟨r, h, _⟩ := rehash_spec hr hmul buckets
    exact ⟨r, h⟩

theorem capacity_positive_indices_valid_witness :
    modEnv.InRange ∧ Reachable modEnv ⟨1, 1, [[], [(1, "a")]]⟩ ∧
      0 < (HashTable.mk 1 1 [[], [(1, "a")]]).capacity ∧
      (HashTable.mk 1 1 [[], [(1, "a")]]).capacity
        ≤ (HashTable.mk 1 2 [[], [(1, "a")], [(2, "b")], []]).capacity ∧
      (0 ≤ (HashTable.mk 1 1 [[], [(1, "a")]]).hash modEnv (-3) ∧
        (HashTable.mk 1 1 [[], [(1, "a")]]).hash modEnv (-3)
          < (HashTable.mk 1 1 [[], [(1, "a")]]).capacity ∧
        ∃ bucket, bucketAt [[], [(1, "a")]]
          ((HashTable.mk 1 1 [[], [(1, "a")]]).hash modEnv (-3)) = some bucket) :=
  ⟨modEnv_inRange, ⟨1, 1, ⟨1, 0, [[]]⟩, [Op.put 1 "a"], by simp [Construct], by decide!⟩,
    (capacity_positive_indices_valid modEnv modEnv_inRange (by decide) ⟨1, 1, [[], [(1, "a")]]⟩
      ⟨1, 1, ⟨1, 0, [[]]⟩, [Op.put 1 "a"], by simp [Construct], by decide!⟩).1,
    (capacity_positive_indices_valid modEnv modEnv_inRange (by decide) ⟨1, 1, [[], [(1, "a")]]⟩
      ⟨1, 1, ⟨1, 0, [[]]⟩, [Op.put 1 "a"], by simp [Construct], by decide!⟩).2.1
      [Op.put 2 "b"] ⟨1, 2, [[], [(1, "a")], [(2, "b")], []]⟩ (by decide!),
    (capacity_positive_indices_valid modEnv modEnv_inRange (by decide) ⟨1, 1, [[], [(1, "a")]]⟩
      ⟨1, 1, ⟨1, 0, [[]]⟩, [Op.put 1 "a"], by simp [Construct], by decide!⟩).2.2.1 (-3)⟩

/-- C17 fails on the code: `Construct(2, 1.0)` followed by 4294967295 calls `Put(1, "a")` leaves
the pair `(1, "a")` stored and the `int` counter at -1, and `Search(1)` returns "a"; then
`Put(2, "b")`, a `Put` on another key, brings the counter to 0 and `Search(1)` returns
absent. -/
theorem Put_disturbs_other_key_at_wrap :
    Construct 2 1 = .ok ⟨1, 0, [[], []]⟩ ∧
      run modEnv ⟨1, 0, [[], []]⟩ (Op.put 1 "a" :: List.replicate 4294967294 (Op.put 1 "a"))
        = some (oneKeyTable (-1)) ∧
      Reachable modEnv (oneKeyTable (-1)) ∧
      (oneKeyTable (-1)).Search modEnv 1 = some (some "a") ∧
      (oneKeyTable (-1)).Put modEnv 2 "b" = some ⟨1, 0, [[(2, "b")], [(1, "a")]]⟩ ∧
      (HashTable.mk 1 0 [[(2, "b")], [(1, "a")]]).Search modEnv 1 = some none := by
  have h1 : Construct 2 1 = .ok ⟨1, 0, [[], []]⟩ := by simp [Construct]
  have h2 : run modEnv ⟨1, 0, [[], []]⟩
      (Op.put 1 "a" :: List.replicate 4294967294 (Op.put 1 "a")) = some (oneKeyTable (-1)) := by
    rw [run_puts]
    rfl
  exact ⟨h1, h2, ⟨2, 1, _, _, h1, h2⟩, by decide!, by decide!, by decide!⟩

/-- C18 fails on the code: after `Construct(2, 1.0)` and 2147483648 calls `Put(1, "a")` the
table is reachable with the `int` counter at -2147483648, below 0 and below the one stored
pair; after 4294967296 calls the counter is 0 with the pair `(1, "a")` still stored, so
`size() == 0` with a bucket that is not empty, and `Search(1)` returns absent where the scan of
the target bucket finds "a". -/
theorem short_circuit_unsound_at_wrap :
    Construct 2 1 = .ok ⟨1, 0, [[], []]⟩ ∧
      Reachable modEnv (oneKeyTable (-2147483648)) ∧
      (oneKeyTable (-2147483648)).num_keys_ < 0 ∧
      (oneKeyTable (-2147483648)).num_keys_
        < (((oneKeyTable (-2147483648)).buckets_.map List.length).sum : Int) ∧
      run modEnv ⟨1, 0, [[], []]⟩ (Op.put 1 "a" :: List.replicate 4294967295 (Op.put 1 "a"))
        = some (oneKeyTable 0) ∧
      Reachable modEnv (oneKeyTable 0) ∧
      (oneKeyTable 0).size = 0 ∧
      [(1, "a")] ∈ (oneKeyTable 0).buckets_ ∧
      (oneKeyTable 0).Search modEnv 1 = some none ∧
      bucketAt (oneKeyTable 0).buckets_ ((oneKeyTable 0).hash modEnv 1) = some [(1, "a")] ∧
      searchBucket [(1, "a")] 1 = some "a" := by
  have h1 : Construct 2 1 = .ok ⟨1, 0, [[], []]⟩ := by simp [Construct]
  have h2 : run modEnv ⟨1, 0, [[], []]⟩
      (Op.put 1 "a" :: List.replicate 2147483647 (Op.put 1 "a"))
        = some (oneKeyTable (-2147483648)) := by
    rw [run_puts]
    rfl
  have h3 : run modEnv ⟨1, 0, [[], []]⟩
      (Op.put 1 "a" :: List.replicate 4294967295 (Op.put 1 "a")) = some (oneKeyTable 0) := by
    rw [run_puts]
    rfl
  exact ⟨h1, ⟨2, 1, _, _, h1, h2⟩, by decide, by decide, h3, ⟨2, 1, _, _, h1, h3⟩, by decide,
    by decide, by decide!, by decide, by decide⟩

/-- C19 fails on the code: after `Construct(2, 1.0)` and 4294967296 calls `Put(1, "a")` the
table is reachable with the `int` counter at 0 and the pair `(1, "a")` stored: `keys()` returns
a set that holds key 1 while `ContainsKey(1)` is false and `Search(1)` is absent. -/
theorem lookup_disagrees_with_keys_at_wrap :
    Construct 2 1 = .ok ⟨1, 0, [[], []]⟩ ∧
      run modEnv ⟨1, 0, [[], []]⟩ (Op.put 1 "a" :: List.replicate 4294967295 (Op.put 1 "a"))
        = some (oneKeyTable 0) ∧
      Reachable modEnv (oneKeyTable 0) ∧
      (oneKeyTable 0).keys = some (oneKeyTable 0).keySet ∧
      (1 : Int) ∈ (oneKeyTable 0).keySet ∧
      (oneKeyTable 0).ContainsKey modEnv 1 = some false ∧
      (oneKeyTable 0).Search modEnv 1 = some none := by
  have h1 : Construct 2 1 = .ok ⟨1, 0, [[], []]⟩ := by simp [Construct]
  have h3 : run modEnv ⟨1, 0, [[], []]⟩
      (Op.put 1 "a" :: List.replicate 4294967295 (Op.put 1 "a")) = some (oneKeyTable 0) := by
    rw [run_puts]
    rfl
  exact ⟨h1, h3, ⟨2, 1, _, _, h1, h3⟩, keys_of_nonneg (by decide), by decide, by decide!,
    by decide!⟩

/-- C20: in a reachable table, for keys `key2 ≠ key`, `Remove(key)` is defined and
`Search(key2)` afterwards returns what it returned before; `capacity()` and `load_factor()` are
unchanged; every bucket other than the one at index `hash(key, capacity())` is as before, and
that bucket holds its former pairs of keys other than `key`, in their former order. -/
theorem Remove_keeps_other_keys (env : Env) (hr : env.InRange)
    (hg : 0 < env.kGrowthCoefficient) (t : HashTable) (ht : Reachable env t) (key key2 : Int)
    (hne : key2 ≠ key) :
    ∃ r t', t.Remove env key = some (r, t') ∧ t'.Search env key2 = t.Search env key2 ∧
      t'.capacity = t.capacity ∧ t'.load_factor = t.load_factor ∧
      ∀ j : Nat, t'.buckets_[j]? =
        if (j : Int) = t.hash env key then
          (t.buckets_[j]?).map (fun bucket => bucket.filter (fun p => p.1 ≠ key))
        else t.buckets_[j]? := by
  have hi := ht.inv hr hg
  have hidx := hr.index_lt key hi.cap_pos
  obtain ⟨r, t', h1, h2, hn, h3, h4, _, h5⟩ := Remove_spec hr hi key
  have hb := Remove_buckets hr hi h1
  refine ⟨r, t', h1, Search_congr hr hi h2 key2 hn ?_, ?_, h3, ?_⟩
  · intro v
    rw [h5]
    exact ⟨fun h => h.2, fun h => ⟨hne, h⟩⟩
  · unfold HashTable.capacity
    rw [h4]
  · intro j
    have hh : t.hash env key = (env.index key t.buckets_.length : Int) :=
      hr.hash_eq key hi.cap_pos
    rw [hb, List.getElem?_set, hh]
    by_cases hij : env.index key t.buckets_.length = j
    · subst hij
      simp only [if_true, hidx, List.getElem?_eq_getElem hidx, Option.map_some',
        List.get_eq_getElem]
    · have hij' : ¬ ((j : Int) = (env.index key t.buckets_.length : Int)) := by
        intro e
        exact hij (by exact_mod_cast e.symm)
      rw [if_neg hij, if_neg hij']

theorem Remove_keeps_other_keys_witness :
    modEnv.InRange ∧ Reachable modEnv ⟨1, 3, [[], [(1, "c"), (5, "b")], [], []]⟩ ∧
      ∃ r t', (HashTable.mk 1 3 [[], [(1, "c"), (5, "b")], [], []]).Remove modEnv 1
          = some (r, t') ∧
        t'.Search modEnv 5
          = (HashTable.mk 1 3 [[], [(1, "c"), (5, "b")], [], []]).Search modEnv 5 ∧
        t'.capacity = (HashTable.mk 1 3 [[], [(1, "c"), (5, "b")], [], []]).capacity ∧
        t'.load_factor = (HashTable.mk 1 3 [[], [(1, "c"), (5, "b")], [], []]).load_factor ∧
        ∀ j : Nat, t'.buckets_[j]? =
          if (j : Int) = (HashTable.mk 1 3 [[], [(1, "c"), (5, "b")], [], []]).hash modEnv 1 then
            ((HashTable.mk 1 3 [[], [(1, "c"), (5, "b")], [], []]).buckets_[j]?).map
              (fun bucket => bucket.filter (fun p => p.1 ≠ 1))
          else (HashTable.mk 1 3 [[], [(1, "c"), (5, "b")], [], []]).buckets_[j]? :=
  ⟨modEnv_inRange,
    ⟨4, 1, ⟨1, 0, [[], [], [], []]⟩, [Op.put 1 "a", Op.put 5 "b", Op.put 1 "c"],
      by simp [Construct], by decide!⟩,
    Remove_keeps_other_keys modEnv modEnv_inRange (by decide)
      ⟨1, 3, [[], [(1, "c"), (5, "b")], [], []]⟩
      ⟨4, 1, ⟨1, 0, [[], [], [], []]⟩, [Op.put 1 "a", Op.put 5 "b", Op.put 1 "c"],
        by simp [Construct], by decide!⟩ 1 5 (by decide)⟩


end itis
